import Mathlib

/-!
Verification development for the tanh-sinh quadrature engine in
`src/include/boost/math/quadrature/detail/tanh_sinh_detail.hpp`.

The C++ class `tanh_sinh_detail<Real, Policy>` is templated over an abstract
real-number type `Real`; the numeric primitives it consumes (`tanh`, `sinh`,
`exp`, `cosh`, `isfinite`, `signbit`, the constant `half_pi`, ...) are
supplied by that type.  We embed the engine shallowly and generically over a
linear ordered field `K`, bundling exactly the numeric primitives the code
calls into a `Prims` structure; for the concrete mathematical claims we
instantiate `K := ℝ` with the genuine transcendental functions
(`realPrims`), and for executable witnesses we instantiate `K := ℚ` with
concrete primitive functions.  Exact field arithmetic stands in for
floating-point arithmetic; real numbers have no non-finite values, so for
the `ℝ` instance `isfinite` is constantly `true` and `signbit x` is `x < 0`
(there is no `-0` in exact arithmetic).
-/

namespace TanhSinh

open Real

/-! ## Transform math (source lines 83-110)

`abscissa_at_t`, `weight_at_t`, `abscissa_complement_at_t` and
`t_from_abscissa_complement` are the four static member functions, embedded
over `ℝ`.  `constants::half_pi<Real>()` is `π / 2`. -/

noncomputable def abscissa_at_t (t : ℝ) : ℝ :=
  Real.tanh (π / 2 * Real.sinh t)

/-- The source introduces the local `cs = cosh(half_pi * sinh t)` and returns
`half_pi * cosh t / (cs * cs)`; the local is inlined here. -/
noncomputable def weight_at_t (t : ℝ) : ℝ :=
  π / 2 * Real.cosh t /
    (Real.cosh (π / 2 * Real.sinh t) * Real.cosh (π / 2 * Real.sinh t))

/-- The source introduces the local `u2 = half_pi * sinh t` and returns
`1 / (exp u2 * cosh u2)`; the local is inlined here. -/
noncomputable def abscissa_complement_at_t (t : ℝ) : ℝ :=
  1 / (Real.exp (π / 2 * Real.sinh t) * Real.cosh (π / 2 * Real.sinh t))

/-- The source introduces the local `l = log (sqrt ((2 - x) / x))`; the local
is inlined here. -/
noncomputable def t_from_abscissa_complement (x : ℝ) : ℝ :=
  Real.log ((Real.sqrt
      (4 * Real.log (Real.sqrt ((2 - x) / x)) * Real.log (Real.sqrt ((2 - x) / x))
        + π * π)
    + 2 * Real.log (Real.sqrt ((2 - x) / x))) / π)

/-- A convenient closed form: the stable complement expression equals
`2 / (exp (π sinh t) + 1)`, because `exp u * cosh u = (exp (2u) + 1) / 2`. -/
theorem abscissa_complement_eq (t : ℝ) :
    abscissa_complement_at_t t = 2 / (Real.exp (π * Real.sinh t) + 1) := by
  unfold abscissa_complement_at_t
  set u := π / 2 * Real.sinh t with hu
  have h2u : π * Real.sinh t = u + u := by rw [hu]; ring
  have hcosh : Real.cosh u = (Real.exp u + Real.exp (-u)) / 2 := Real.cosh_eq u
  have hexp : Real.exp (-u) = (Real.exp u)⁻¹ := Real.exp_neg u
  have hpos : (0:ℝ) < Real.exp u := Real.exp_pos u
  rw [h2u, Real.exp_add, hcosh, hexp]
  rw [div_eq_div_iff (by positivity) (by positivity)]
  field_simp
  ring

/-- `abscissa_complement_at_t` is positive everywhere. -/
theorem abscissa_complement_pos (t : ℝ) : 0 < abscissa_complement_at_t t := by
  rw [abscissa_complement_eq]
  have : (0:ℝ) < Real.exp (π * Real.sinh t) + 1 :=
    add_pos (Real.exp_pos _) one_pos
  positivity

/-- `abscissa_complement_at_t` is antitone: larger parameters give smaller
complements. -/
theorem abscissa_complement_antitone {s t : ℝ} (h : s ≤ t) :
    abscissa_complement_at_t t ≤ abscissa_complement_at_t s := by
  rw [abscissa_complement_eq, abscissa_complement_eq]
  have hm : Real.exp (π * Real.sinh s) + 1 ≤ Real.exp (π * Real.sinh t) + 1 := by
    have hs : Real.sinh s ≤ Real.sinh t := Real.sinh_le_sinh.2 h
    have : π * Real.sinh s ≤ π * Real.sinh t :=
      mul_le_mul_of_nonneg_left hs (le_of_lt Real.pi_pos)
    exact add_le_add_right (Real.exp_le_exp.2 this) 1
  have hpos : (0:ℝ) < Real.exp (π * Real.sinh s) + 1 :=
    add_pos (Real.exp_pos _) one_pos
  exact div_le_div_of_nonneg_left (by norm_num) hpos hm

/-- For `t ≥ 0` the complement is at most `1`. -/
theorem abscissa_complement_le_one {t : ℝ} (h : 0 ≤ t) :
    abscissa_complement_at_t t ≤ 1 := by
  rw [abscissa_complement_eq]
  have hs : (0:ℝ) ≤ π * Real.sinh t :=
    mul_nonneg (le_of_lt Real.pi_pos) (Real.sinh_nonneg_iff.2 h)
  have : (1:ℝ) ≤ Real.exp (π * Real.sinh t) := Real.one_le_exp hs
  rw [div_le_one (by linarith)]
  linarith

/-- The abscissa is nonnegative for `t ≥ 0`. -/
theorem abscissa_nonneg {t : ℝ} (h : 0 ≤ t) : 0 ≤ abscissa_at_t t := by
  unfold abscissa_at_t
  rw [Real.tanh_eq_sinh_div_cosh]
  have hu : (0:ℝ) ≤ π / 2 * Real.sinh t :=
    mul_nonneg (by positivity) (Real.sinh_nonneg_iff.2 h)
  exact div_nonneg (Real.sinh_nonneg_iff.2 hu) (le_of_lt (Real.cosh_pos _))

/-- C8 — In exact real arithmetic the stable complement form equals one minus
the abscissa: for every parameter `t`,
`abscissa_complement_at_t t = 1 - abscissa_at_t t`, i.e.
`1/(exp u · cosh u) = 1 - tanh u` with `u = (π/2) · sinh t`. -/
theorem complement_eq_one_sub_abscissa (t : ℝ) :
    abscissa_complement_at_t t = 1 - abscissa_at_t t := by
  unfold abscissa_complement_at_t abscissa_at_t
  set u := π / 2 * Real.sinh t with hu
  have hc : (0:ℝ) < Real.cosh u := Real.cosh_pos u
  have he : (0:ℝ) < Real.exp u := Real.exp_pos u
  rw [Real.tanh_eq_sinh_div_cosh]
  have h1 : (1:ℝ) - Real.sinh u / Real.cosh u = Real.exp (-u) / Real.cosh u := by
    rw [← Real.cosh_sub_sinh]
    field_simp
  rw [h1, Real.exp_neg]
  field_simp

/-! ## Concrete numeric bounds on the transform

These interval bounds on the transcendental constants are used to decide the
comparisons the driver makes on level-0 table entries (for the witness with
`left_min_complement = right_min_complement = 1e-3`) and to locate the
crossover parameter `t_from_abscissa_complement 0.5` strictly between `0`
and `1`. -/

theorem sinh_one_lt : Real.sinh 1 < 1.18 := by
  have he : Real.exp 1 < 2.7182818286 := Real.exp_one_lt_d9
  have hegt : 2.7182818283 < Real.exp 1 := Real.exp_one_gt_d9
  have hinv : Real.exp (-1 : ℝ) = (Real.exp 1)⁻¹ := Real.exp_neg 1
  have hpos : (0:ℝ) < Real.exp 1 := Real.exp_pos 1
  rw [Real.sinh_eq, hinv]
  rw [div_lt_iff (by norm_num)]
  have hlow : (0.36:ℝ) < (Real.exp 1)⁻¹ := by
    rw [lt_inv (by norm_num) hpos]
    linarith
  linarith

theorem sinh_two_gt : 3.62 < Real.sinh 2 := by
  have hegt : 2.7182818283 < Real.exp 1 := Real.exp_one_gt_d9
  have helt : Real.exp 1 < 2.7182818286 := Real.exp_one_lt_d9
  have h2 : Real.exp (2:ℝ) = Real.exp 1 ^ 2 := by
    rw [show (2:ℝ) = ((2:ℕ) : ℝ) * 1 by norm_num, Real.exp_nat_mul]
  have h2gt : (7.389:ℝ) < Real.exp 2 := by rw [h2]; nlinarith
  have h2lt : Real.exp (2:ℝ) < 7.39 := by rw [h2]; nlinarith
  have hinv : Real.exp (-2 : ℝ) = (Real.exp 2)⁻¹ := Real.exp_neg 2
  have hpos : (0:ℝ) < Real.exp 2 := Real.exp_pos 2
  have hinvlt : (Real.exp 2)⁻¹ < 0.14 := by
    rw [inv_lt (by linarith) (by norm_num)]
    linarith
  rw [Real.sinh_eq, hinv]
  rw [lt_div_iff (by norm_num)]
  linarith

theorem exp_four_lt : Real.exp 4 < 55 := by
  have helt : Real.exp 1 < 2.7182818286 := Real.exp_one_lt_d9
  have h4 : Real.exp (4:ℝ) = Real.exp 1 ^ 4 := by
    rw [show (4:ℝ) = ((4:ℕ) : ℝ) * 1 by norm_num, Real.exp_nat_mul]
  have hpos : (0:ℝ) < Real.exp 1 := Real.exp_pos 1
  have h2 : Real.exp 1 ^ 2 < 7.39 := by nlinarith
  have h4' : Real.exp 1 ^ 4 < 54.7 := by nlinarith
  rw [h4]
  linarith

theorem exp_eight_gt : 2000 < Real.exp 8 := by
  have hegt : 2.7182818283 < Real.exp 1 := Real.exp_one_gt_d9
  have h8 : Real.exp (8:ℝ) = Real.exp 1 ^ 8 := by
    rw [show (8:ℝ) = ((8:ℕ) : ℝ) * 1 by norm_num, Real.exp_nat_mul]
  have hpos : (0:ℝ) < Real.exp 1 := Real.exp_pos 1
  have h2 : (7.389:ℝ) < Real.exp 1 ^ 2 := by nlinarith
  have h4 : (54.59:ℝ) < Real.exp 1 ^ 4 := by nlinarith
  have h8' : (2980:ℝ) < Real.exp 1 ^ 8 := by nlinarith
  rw [h8]; linarith

/-- With exact arithmetic, the level-0 entry at parameter `t = 1` has
complement magnitude at least `1e-3`. -/
theorem compl_one_ge : (1/1000 : ℝ) ≤ abscissa_complement_at_t 1 := by
  rw [abscissa_complement_eq]
  have hs : Real.sinh 1 < 1.18 := sinh_one_lt
  have hs0 : 0 ≤ Real.sinh 1 := Real.sinh_nonneg_iff.2 (by norm_num)
  have hpi : π < 3.15 := Real.pi_lt_315
  have hpi0 : 0 < π := Real.pi_pos
  have harg : π * Real.sinh 1 ≤ 4 := by nlinarith
  have hexp : Real.exp (π * Real.sinh 1) ≤ Real.exp 4 := Real.exp_le_exp.2 harg
  have h4 : Real.exp 4 < 55 := exp_four_lt
  have hd : Real.exp (π * Real.sinh 1) + 1 ≤ 56 := by linarith
  have hdpos : (0:ℝ) < Real.exp (π * Real.sinh 1) + 1 :=
    add_pos (Real.exp_pos _) one_pos
  rw [le_div_iff hdpos]
  linarith

/-- With exact arithmetic, the level-0 entry at parameter `t = 2` has
complement magnitude below `1e-3`. -/
theorem compl_two_lt : abscissa_complement_at_t 2 < (1/1000 : ℝ) := by
  rw [abscissa_complement_eq]
  have hs : 3.62 < Real.sinh 2 := sinh_two_gt
  have hpi : 3.14 < π := Real.pi_gt_314
  have harg : (8:ℝ) < π * Real.sinh 2 := by nlinarith
  have hexp : Real.exp 8 < Real.exp (π * Real.sinh 2) := Real.exp_lt_exp.2 harg
  have h8 : 2000 < Real.exp 8 := exp_eight_gt
  have hdpos : (0:ℝ) < Real.exp (π * Real.sinh 2) + 1 :=
    add_pos (Real.exp_pos _) one_pos
  rw [div_lt_iff hdpos]
  linarith

/-- The crossover parameter computed at construction:
`m_t_crossover = t_from_abscissa_complement 0.5`. -/
noncomputable def tCrossStd : ℝ := t_from_abscissa_complement (1/2)

theorem log_sqrt_three_pos : 0 < Real.log (Real.sqrt 3) := by
  apply Real.log_pos
  rw [show (1:ℝ) = Real.sqrt 1 by simp]
  exact Real.sqrt_lt_sqrt (by norm_num) (by norm_num)

theorem log_sqrt_three_lt : Real.log (Real.sqrt 3) < 0.6 := by
  rw [Real.log_sqrt (by norm_num)]
  have h3 : (3:ℝ) < Real.exp 1.2 := by
    have h1 : Real.exp (1.2:ℝ) = Real.exp 1 * Real.exp 0.2 := by
      rw [← Real.exp_add]; norm_num
    have he : 2.7182818283 < Real.exp 1 := Real.exp_one_gt_d9
    have h02 : (1.2:ℝ) ≤ Real.exp 0.2 := by
      have := Real.add_one_le_exp (0.2 : ℝ)
      linarith
    have hp : (0:ℝ) < Real.exp 0.2 := Real.exp_pos _
    rw [h1]; nlinarith
  have := (Real.log_lt_iff_lt_exp (by norm_num : (0:ℝ) < 3)).2 h3
  linarith

/-- The crossover parameter lies strictly between `0` and `1`; in particular
each integer parameter `t = 1, …, 6` of the standard level-0 row lies at or
above the crossover and is therefore stored in negative complement form. -/
theorem tCrossStd_lt_one : tCrossStd < 1 := by
  unfold tCrossStd t_from_abscissa_complement
  have hl : Real.log (Real.sqrt ((2 - 1/2) / (1/2))) = Real.log (Real.sqrt 3) := by
    norm_num
  rw [hl]
  set l := Real.log (Real.sqrt 3) with hldef
  have hl0 : 0 < l := log_sqrt_three_pos
  have hl6 : l < 0.6 := log_sqrt_three_lt
  have hpi : 3.14 < π := Real.pi_gt_314
  have hpilt : π < 3.15 := Real.pi_lt_315
  have hsq : Real.sqrt (4 * l * l + π * π) < 3.38 := by
    rw [Real.sqrt_lt' (by norm_num)]
    nlinarith
  have harg0 : 0 < (Real.sqrt (4 * l * l + π * π) + 2 * l) / π := by
    have hs0 : 0 ≤ Real.sqrt (4 * l * l + π * π) := Real.sqrt_nonneg _
    positivity
  rw [Real.log_lt_iff_lt_exp harg0]
  have he : 2.7182818283 < Real.exp 1 := Real.exp_one_gt_d9
  rw [div_lt_iff Real.pi_pos]
  nlinarith

theorem tCrossStd_pos : 0 < tCrossStd := by
  unfold tCrossStd t_from_abscissa_complement
  have hl : Real.log (Real.sqrt ((2 - 1/2) / (1/2))) = Real.log (Real.sqrt 3) := by
    norm_num
  rw [hl]
  set l := Real.log (Real.sqrt 3) with hldef
  have hl0 : 0 < l := log_sqrt_three_pos
  have hsq : π ≤ Real.sqrt (4 * l * l + π * π) := by
    have h1 : Real.sqrt (π ^ 2) ≤ Real.sqrt (4 * l * l + π * π) :=
      Real.sqrt_le_sqrt (by nlinarith)
    rwa [Real.sqrt_sq (le_of_lt Real.pi_pos)] at h1
  apply Real.log_pos
  rw [lt_div_iff Real.pi_pos]
  linarith

theorem abscissa_at_zero : abscissa_at_t 0 = 0 := by
  unfold abscissa_at_t
  simp [Real.sinh_zero, Real.tanh_zero]

/-! ## Generic engine model

The class is templated over `Real`; we model it over a linear ordered field
`K`.  `Prims` bundles the numeric primitives the engine calls on `Real`:
the three static transform functions (for the `ℝ` instance these are
`abscissa_at_t`, `weight_at_t`, `abscissa_complement_at_t` above), the
constant `half_pi`, and the classification functions
`boost::math::isfinite` / `boost::math::signbit`. -/

structure Prims (K : Type) where
  absc : K → K
  wt : K → K
  compl : K → K
  halfPi : K
  isfinite : K → Bool
  signbit : K → Bool

/-- The real instance: genuine transform functions, `half_pi = π/2`.  Exact
real numbers have no infinities or NaNs, so `isfinite` is constantly true,
and `signbit x` is `x < 0` (exact arithmetic has no negative zero). -/
noncomputable def realPrims : Prims ℝ where
  absc := abscissa_at_t
  wt := weight_at_t
  compl := abscissa_complement_at_t
  halfPi := π / 2
  isfinite := fun _ => true
  signbit := fun x => decide (x < 0)

/-- The engine's mutable member state (source lines 112-118).  The outer
`std::vector`s of rows are modelled as total functions `ℕ → List K`
(out-of-range rows read as `[]`); `outerSize` records
`m_abscissas.size() = m_weights.size()`, which the driver's loop condition
consults and which stays fixed after construction. -/
structure TableState (K : Type) where
  abscissas : ℕ → List K
  weights : ℕ → List K
  firstComplements : ℕ → ℕ
  committed : ℕ
  outerSize : ℕ
  maxRefinements : ℕ
  initialRowLength : ℕ
  tol : K
  tMax : K
  tCross : K

variable {K : Type} [LinearOrderedField K]

/-- The scan `for (Real pos = h; pos < t_max; pos += 2*h)` shared by
`extend_refinements` and the `init` row loop, collecting the visited
positions.  The `fuel` argument is a ghost iteration bound (the guard
`pos < tmax` alone controls every exit when the fuel is large enough, and
callers pass the provably sufficient `posFuel`). -/
def posLoop (tmax h : K) : ℕ → K → List K
  | 0, _ => []
  | fuel + 1, pos => if pos < tmax then pos :: posLoop tmax h fuel (pos + 2 * h) else []

/-- A sufficient iteration bound for `posLoop` at step `h`: the loop body
runs at most `⌈tmax / h⌉` times when `0 < h`. -/
def posFuel [FloorRing K] (tmax h : K) : ℕ := (⌈tmax / h⌉).toNat + 1

/-- One iteration of the row-building loop body of `extend_refinements`
(source lines 72-77): bump the `first_complement` counter when
`pos < t_crossover`, and push `abscissa_at_t pos` below the crossover or
`-abscissa_complement_at_t pos` at or above it. -/
def rowStep (P : Prims K) (cross : K) (acc : List K × ℕ) (pos : K) : List K × ℕ :=
  (acc.1 ++ [if pos < cross then P.absc pos else -(P.compl pos)],
   if pos < cross then acc.2 + 1 else acc.2)

/-- The abscissa entries and `first_complement` count produced by running the
row-building loop over the position list. -/
def buildRow (P : Prims K) (cross : K) (ps : List K) : List K × ℕ :=
  ps.foldl (rowStep P cross) ([], 0)

/-- `extend_refinements` (source lines 66-81): bump
`m_committed_refinements`, then append to row `committedRefinements`
abscissa entries, the first-complement count, and weight entries generated
at step `h = ldexp(1, -row) = 2⁻ʳᵒʷ`. -/
def extendRefinements [FloorRing K] (P : Prims K) (s : TableState K) : TableState K :=
  let row := s.committed + 1
  let h : K := ((2 : K) ^ row)⁻¹
  let ps := posLoop s.tMax h (posFuel s.tMax h) h
  let built := buildRow P s.tCross ps
  { s with
    committed := row
    abscissas := Function.update s.abscissas row (s.abscissas row ++ built.1)
    firstComplements := Function.update s.firstComplements row built.2
    weights := Function.update s.weights row (s.weights row ++ ps.map P.wt) }

/-- `get_abscissa_row` (source lines 41-47): extend once if the requested
level is not yet committed, then return the row (and the possibly-extended
state, since the underlying members are `mutable`). -/
def getAbscissaRow [FloorRing K] (P : Prims K) (n : ℕ) (s : TableState K) :
    List K × TableState K :=
  let s' := if s.committed < n then extendRefinements P s else s
  (s'.abscissas n, s')

/-- `get_weight_row` (source lines 48-54). -/
def getWeightRow [FloorRing K] (P : Prims K) (n : ℕ) (s : TableState K) :
    List K × TableState K :=
  let s' := if s.committed < n then extendRefinements P s else s
  (s'.weights n, s')

/-- `get_first_complement_index` (source lines 55-61). -/
def getFirstComplementIndex [FloorRing K] (P : Prims K) (n : ℕ) (s : TableState K) :
    ℕ × TableState K :=
  let s' := if s.committed < n then extendRefinements P s else s
  (s'.firstComplements n, s')

/-! ### Characterisation of the position scan -/

/-- The `i`-th odd-multiple position at step `h`: `pos = h, 3h, 5h, …`. -/
def posAt (h : K) (j : ℕ) : K := h * (2 * (j : K) + 1)

theorem posAt_step (h : K) (j : ℕ) : posAt h j + 2 * h = posAt h (j + 1) := by
  unfold posAt
  push_cast
  ring

theorem posAt_zero (h : K) : posAt h 0 = h := by
  unfold posAt
  push_cast
  ring

theorem posLoop_eq (tmax h : K) :
    ∀ (fuel a : ℕ), tmax ≤ posAt h (a + fuel) →
    ∃ n : ℕ, n ≤ fuel ∧
      posLoop tmax h fuel (posAt h a) =
        (List.range n).map (fun i => posAt h (a + i)) ∧
      (∀ i < n, posAt h (a + i) < tmax) ∧
      tmax ≤ posAt h (a + n) := by
  intro fuel
  induction fuel with
  | zero =>
    intro a hstop
    exact ⟨0, le_refl 0, rfl, fun i hi => absurd hi (Nat.not_lt_zero i), hstop⟩
  | succ fuel ih =>
    intro a hstop
    by_cases hguard : posAt h a < tmax
    · have hstop' : tmax ≤ posAt h (a + 1 + fuel) := by
        have harg : a + 1 + fuel = a + (fuel + 1) := by omega
        rw [harg]
        exact hstop
      obtain ⟨n, hn, heq, hlt, hcomp⟩ := ih (a + 1) hstop'
      refine ⟨n + 1, Nat.succ_le_succ hn, ?_, ?_, ?_⟩
      · rw [posLoop, if_pos hguard, posAt_step, heq, List.range_succ_eq_map,
          List.map_cons, List.map_map]
        congr 1
        apply List.map_congr_left
        intro i _
        simp only [Function.comp_apply]
        congr 1
        omega
      · intro i hi
        cases i with
        | zero => simpa using hguard
        | succ j =>
          have hj : j < n := by omega
          have := hlt j hj
          have harg : a + 1 + j = a + (j + 1) := by omega
          rwa [harg] at this
      · have harg : a + 1 + n = a + (n + 1) := by omega
        rwa [harg] at hcomp
    · refine ⟨0, Nat.zero_le _, ?_, fun i hi => absurd hi (Nat.not_lt_zero i), ?_⟩
      · rw [posLoop, if_neg hguard]
        simp
      · simpa using le_of_not_lt hguard

theorem posFuel_stop [FloorRing K] (tmax h : K) (hh : 0 < h) :
    tmax ≤ posAt h (0 + posFuel tmax h) := by
  rw [Nat.zero_add]
  unfold posAt
  by_cases hneg : tmax ≤ 0
  · have : (0:K) < h * (2 * (posFuel tmax h : K) + 1) := by positivity
    linarith
  · push_neg at hneg
    have hq : 0 < tmax / h := div_pos hneg hh
    have hceil : (0:ℤ) < ⌈tmax / h⌉ := Int.ceil_pos.mpr hq
    have hle : tmax / h ≤ ((⌈tmax / h⌉ : ℤ) : K) := Int.le_ceil _
    have h0 : ((⌈tmax / h⌉.toNat : ℕ) : K) = ((⌈tmax / h⌉ : ℤ) : K) := by
      rw [show ((⌈tmax / h⌉.toNat : ℕ) : K) = (((⌈tmax / h⌉.toNat : ℕ) : ℤ) : K) from
        (Int.cast_natCast _).symm, Int.toNat_of_nonneg (le_of_lt hceil)]
    have hcast : (posFuel tmax h : K) = ((⌈tmax / h⌉ : ℤ) : K) + 1 := by
      unfold posFuel
      rw [Nat.cast_add, Nat.cast_one, h0]
    have h1 : tmax ≤ h * (tmax / h) := by
      rw [mul_div_cancel₀ _ (ne_of_gt hh)]
    have h2 : h * (tmax / h) ≤ h * ((⌈tmax / h⌉ : ℤ) : K) :=
      mul_le_mul_of_nonneg_left hle (le_of_lt hh)
    have h3 : ((⌈tmax / h⌉ : ℤ) : K) ≤ 2 * (posFuel tmax h : K) + 1 := by
      rw [hcast]
      have : (0:K) ≤ ((⌈tmax / h⌉ : ℤ) : K) := le_trans (le_of_lt hq) hle
      linarith
    calc tmax ≤ h * (tmax / h) := h1
      _ ≤ h * ((⌈tmax / h⌉ : ℤ) : K) := h2
      _ ≤ h * (2 * (posFuel tmax h : K) + 1) :=
          mul_le_mul_of_nonneg_left h3 (le_of_lt hh)

/-- The position scan at step `h > 0` visits exactly the positions
`h, 3h, 5h, …` strictly below `tmax`. -/
theorem posLoop_spec [FloorRing K] (tmax h : K) (hh : 0 < h) :
    ∃ n : ℕ,
      posLoop tmax h (posFuel tmax h) h =
        (List.range n).map (posAt h) ∧
      (∀ i < n, posAt h i < tmax) ∧
      tmax ≤ posAt h n := by
  obtain ⟨n, _, heq, hlt, hcomp⟩ :=
    posLoop_eq tmax h (posFuel tmax h) 0 (posFuel_stop tmax h hh)
  rw [posAt_zero] at heq
  refine ⟨n, ?_, ?_, ?_⟩
  · rw [heq]
    apply List.map_congr_left
    intro i _
    rw [Nat.zero_add]
  · intro i hi
    have := hlt i hi
    rwa [Nat.zero_add] at this
  · have := hcomp
    rwa [Nat.zero_add] at this

/-- Running the row-building loop over a position list yields the mapped
entries together with the count of positions below the crossover. -/
theorem buildRow_eq (P : Prims K) (cross : K) (ps : List K) :
    buildRow P cross ps =
      (ps.map (fun pos => if pos < cross then P.absc pos else -(P.compl pos)),
       ps.countP (fun pos => decide (pos < cross))) := by
  suffices h : ∀ (acc : List K) (c : ℕ),
      ps.foldl (rowStep P cross) (acc, c) =
        (acc ++ ps.map (fun pos => if pos < cross then P.absc pos else -(P.compl pos)),
         c + ps.countP (fun pos => decide (pos < cross))) by
    have := h [] 0
    simpa [buildRow] using this
  induction ps with
  | nil => intro acc c; simp
  | cons p ps ih =>
    intro acc c
    rw [List.foldl_cons, rowStep, ih]
    by_cases hp : p < cross <;>
      simp [hp, List.countP_cons, List.append_assoc] <;> omega

/-! ## The integration driver (source lines 123-311)

`integrate` is embedded with explicit state threading (the accessors can
lazily extend the `mutable` table) and ghost instrumentation: the list of
`(side, x, xc)` argument pairs passed to the integrand `f`, the list of
running estimates inspected by the per-level `isfinite` check, the list of
values handed to `raise_evaluation_error`, and iteration counters.  The
ghost fields record events and influence nothing.

The caller's out-parameters `Real* error` / `Real* L1` are modelled by the
flags `wantError` / `wantL1` (pointer non-null) together with `Option`
output slots: `none` means the slot was never stored to.
`raise_evaluation_error` is modelled as an `Except.error` carrying the
offending value.  `std::size_t` subtraction is modelled by truncated `ℕ`
subtraction (the driver's documented precondition keeps the walk result
positive, so the C++ unsigned wrap-around at `max_left_position = 0` is
outside the modelled precondition). -/

inductive Side
  | center
  | left
  | right
deriving DecidableEq

structure Call (K : Type) where
  side : Side
  x : K
  xc : K
deriving DecidableEq

structure IntOut (K : Type) where
  result : Except K K
  errorOut : Option K
  l1Out : Option K
  calls : List (Call K)
  checks : List K
  reports : List K
  iterations : ℕ
  finalK : ℕ
  brokeTol : Bool
  finalErr : K
  finalL1 : K
  finalState : TableState K

/-- The level-0 endpoint-safety walk (source lines 154-157):
`while (p && fabs(a0[p]) < thr) --p`. -/
def walkBack (a0 : List K) (thr : K) : ℕ → ℕ
  | 0 => 0
  | p + 1 => if |a0.getD (p + 1) 0| < thr then walkBack a0 thr p else p + 1

/-- The level-0 accumulation loop (source lines 170-189), iterating
`i = 1, …` while `i < a0.length`, with the early `break` once both sides
are out of bounds.  Returns the updated `(I0, L1_I0)` and the extended call
log.  `fuel` is a ghost bound (callers pass `a0.length`, enough for every
exit to be decided by the guards). -/
def level0Loop (P : Prims K) (f : K → K → K) (a0 w0 : List K) (maxL maxR : ℕ) :
    ℕ → ℕ → K × K × List (Call K) → K × K × List (Call K)
  | 0, _, acc => acc
  | fuel + 1, i, (I0, L1, cs) =>
    if i < a0.length then
      if maxR < i ∧ maxL < i then (I0, L1, cs)
      else
        let x0 := a0.getD i 0
        let w := w0.getD i 0
        let x := if P.signbit x0 then 1 + x0 else x0
        let xc := if P.signbit x0 then x0 else x0 - 1
        let yp := if i ≤ maxR then f x (-xc) else 0
        let ym := if i ≤ maxL then f (-x) xc else 0
        let cs' := cs ++ (if i ≤ maxR then [⟨Side.right, x, -xc⟩] else [])
          ++ (if i ≤ maxL then [⟨Side.left, -x, xc⟩] else [])
        level0Loop P f a0 w0 maxL maxR fuel (i + 1)
          (I0 + (yp + ym) * w, L1 + (|yp| + |ym|) * w, cs')
    else (I0, L1, cs)

/-- The per-level inner loop (source lines 242-273), iterating `j = 0, …`
while `j < weightRow.length`, with the early `break` once both sides are
out of bounds.  Returns `(sum, absum)` and the extended call log. -/
def innerLoop (P : Prims K) (f : K → K → K) (aRow wRow : List K)
    (fci maxLidx maxRidx : ℕ) :
    ℕ → ℕ → K × K × List (Call K) → K × K × List (Call K)
  | 0, _, acc => acc
  | fuel + 1, j, (sum, absum, cs) =>
    if j < wRow.length then
      if maxLidx < j ∧ maxRidx < j then (sum, absum, cs)
      else
        let x0 := aRow.getD j 0
        let w := wRow.getD j 0
        let x := if fci ≤ j then 1 + x0 else x0
        let xc := if fci ≤ j then x0 else x0 - 1
        let yp := if maxRidx < j then 0 else f x (-xc)
        let ym := if maxLidx < j then 0 else f (-x) xc
        let cs' := cs ++ (if maxRidx < j then [] else [⟨Side.right, x, -xc⟩])
          ++ (if maxLidx < j then [] else [⟨Side.left, -x, xc⟩])
        innerLoop P f aRow wRow fci maxLidx maxRidx fuel (j + 1)
          (sum + (yp + ym) * w, absum + (|yp| + |ym|) * w, cs')
    else (sum, absum, cs)

/-- The mutable locals of the refinement loop. -/
structure LoopAcc (K : Type) where
  k : ℕ
  I1 : K
  L1 : K
  h : K
  err : K
  maxLpos : ℕ
  maxRpos : ℕ
  s : TableState K
  calls : List (Call K)
  checks : List K
  iterations : ℕ

/-- Normal-path exit of `integrate` (source lines 300-310): store the error
estimate and L1 estimate through the (non-null) out-pointers and return the
best estimate. -/
def finishNormal (wantError wantL1 : Bool) (broke : Bool) (a : LoopAcc K) : IntOut K where
  result := Except.ok a.I1
  errorOut := if wantError then some a.err else none
  l1Out := if wantL1 then some a.L1 else none
  calls := a.calls
  checks := a.checks
  reports := []
  iterations := a.iterations
  finalK := a.k
  brokeTol := broke
  finalErr := a.err
  finalL1 := a.L1
  finalState := a.s

/-- Outcome of one iteration of the refinement loop body: an immediate
error return, a tolerance break, or continuation with updated locals. -/
inductive StepRes (K : Type) where
  | errorRet (out : IntOut K)
  | breakTol (a' : LoopAcc K)
  | next (a' : LoopAcc K)

/-- The per-side endpoint-bookkeeping update at the start of a new row
(source lines 227-240): the new logical position is twice the old one, the
new max index is one to its left, and a single comparison decides whether
the newly introduced boundary point is still within tolerance. -/
def bump (row : List K) (thr : K) (oldPos : ℕ) : ℕ × ℕ :=
  let idx0 := oldPos - 1
  let pos0 := oldPos * 2
  if idx0 + 1 < row.length ∧ thr < |row.getD (idx0 + 1) 0| then
    (pos0 + 1, idx0 + 1)
  else (pos0, idx0)

/-- The values one loop iteration computes before its exit checks. -/
structure IterData (K : Type) where
  I1 : K
  L1 : K
  h : K
  err : K
  maxLpos : ℕ
  maxLidx : ℕ
  maxRpos : ℕ
  maxRidx : ℕ
  s3 : TableState K
  calls : List (Call K)

/-- The computation of one iteration of the refinement loop body (source
lines 204-278): halve the running estimates and `h`, fetch (possibly
lazily extending) the level-`k` rows, update the endpoint-safety
positions, run the inner accumulation loop, and recompute `err`. -/
def iterData [FloorRing K] (P : Prims K) (f : K → K → K) (thrL thrR : K)
    (a : LoopAcc K) : IterData K :=
  let I0 := a.I1
  let L1I0 := a.L1
  let I1 := (1 / 2 : K) * I0
  let L1I1 := (1 / 2 : K) * L1I0
  let h := a.h * (1 / 2 : K)
  let ar := getAbscissaRow P a.k a.s
  let wr := getWeightRow P a.k ar.2
  let fc := getFirstComplementIndex P a.k wr.2
  let aRow := ar.1
  let wRow := wr.1
  let fci := fc.1
  let bl := bump aRow thrL a.maxLpos
  let br := bump aRow thrR a.maxRpos
  let inner := innerLoop P f aRow wRow fci bl.2 br.2
    wRow.length 0 (0, 0, a.calls)
  let I1' := I1 + inner.1 * h
  let L1I1' := L1I1 + inner.2.1 * h
  { I1 := I1'
    L1 := L1I1'
    h := h
    err := |I0 - I1'|
    maxLpos := bl.1
    maxLidx := bl.2
    maxRpos := br.1
    maxRidx := br.2
    s3 := fc.2
    calls := inner.2.2 }

/-- One iteration of the refinement loop body (source lines 204-297): the
accumulation above, then `++k`, the non-finite check (immediate error
return) and the tolerance check (break once `k > 4`). -/
def loopBody [FloorRing K] (P : Prims K) (f : K → K → K) (thrL thrR : K)
    (a : LoopAcc K) : StepRes K :=
  let d := iterData P f thrL thrR a
  let a' : LoopAcc K :=
    { k := a.k + 1, I1 := d.I1, L1 := d.L1, h := d.h, err := d.err
      maxLpos := d.maxLpos, maxRpos := d.maxRpos, s := d.s3
      calls := d.calls, checks := a.checks ++ [d.I1]
      iterations := a.iterations + 1 }
  if P.isfinite d.I1 = false then
    StepRes.errorRet
      { result := Except.error d.I1
        errorOut := none
        l1Out := none
        calls := d.calls
        checks := a.checks ++ [d.I1]
        reports := [d.I1]
        iterations := a.iterations + 1
        finalK := a.k + 1
        brokeTol := false
        finalErr := d.err
        finalL1 := d.L1
        finalState := d.s3 }
  else if 4 < a.k + 1 ∧ d.err ≤ d.s3.tol * d.L1 then StepRes.breakTol a'
  else StepRes.next a'

/-- The refinement loop `while (k < 4 || (k < m_weights.size() && k <
m_max_refinements))` (source lines 202-299).  `fuel` is a ghost iteration
bound; the guard is re-evaluated every iteration exactly as in the source,
and the top-level `integrate` passes fuel `max 4 (min outerSize
maxRefinements)`, which exceeds the number of iterations the guard can
admit, so the fuel never forces an exit. -/
def integrateLoop [FloorRing K] (P : Prims K) (f : K → K → K)
    (wantError wantL1 : Bool) (thrL thrR : K) :
    ℕ → LoopAcc K → IntOut K
  | 0, a => finishNormal wantError wantL1 false a
  | fuel + 1, a =>
    if a.k < 4 ∨ (a.k < a.s.outerSize ∧ a.k < a.s.maxRefinements) then
      match loopBody P f thrL thrR a with
      | StepRes.errorRet out => out
      | StepRes.breakTol a' => finishNormal wantError wantL1 true a'
      | StepRes.next a' => integrateLoop P f wantError wantL1 thrL thrR fuel a'
    else finishNormal wantError wantL1 false a

/-- `integrate` (source lines 123-311): level-0 walk and accumulation, then
the refinement loop. -/
def integrate [FloorRing K] (P : Prims K) (s : TableState K) (f : K → K → K)
    (wantError wantL1 : Bool) (thrL thrR : K) : IntOut K :=
  let a0 := s.abscissas 0
  let w0 := s.weights 0
  let startPos := a0.length - 1
  let maxLpos := walkBack a0 thrL startPos
  let maxRpos := walkBack a0 thrR startPos
  let h := s.tMax / (s.initialRowLength : K)
  let I0 := P.halfPi * f 0 1
  let L1I0 := |I0|
  let lvl0 := level0Loop P f a0 w0 maxLpos maxRpos a0.length 1
    (I0, L1I0, [⟨Side.center, 0, 1⟩])
  integrateLoop P f wantError wantL1 thrL thrR
    (max 4 (min s.outerSize s.maxRefinements))
    { k := 1, I1 := lvl0.1, L1 := lvl0.2.1, h := h, err := 0
      maxLpos := maxLpos, maxRpos := maxRpos, s := s
      calls := lvl0.2.2, checks := [], iterations := 0 }

/-! ## Standard initialisation `init(mpl::int_<0>)` (source lines 313-371)

Row 0 has `m_inital_row_length = 7` computed entries at `t = h·i`
(`h = m_t_max / m_inital_row_length = 7/7`) followed by one extra entry
`abscissa_complement_at_t(m_t_max)` — stored positive, not negated.  The
`first_complement` scan of row 0 compares the unsigned counter against `0`
(`first_complement < 0`), which is never true, so row 0's stored first
complement index remains `0`.  Rows `1…initial_commit` are then built
eagerly by the same scan-and-build loop as `extend_refinements`, with `h`
halved at the top of each iteration. -/

noncomputable def stdRow0Abscissas : List ℝ :=
  ((List.range 7).map fun i : ℕ =>
    if ((7:ℝ) / 7) * (i:ℝ) < tCrossStd then abscissa_at_t (((7:ℝ) / 7) * (i:ℝ))
    else -(abscissa_complement_at_t (((7:ℝ) / 7) * (i:ℝ))))
  ++ [abscissa_complement_at_t 7]

noncomputable def stdRow0Weights : List ℝ :=
  ((List.range 7).map fun i : ℕ => weight_at_t (((7:ℝ) / 7) * (i:ℝ)))
    ++ [weight_at_t 7]

/-- The step sequence of the eager row loop: `h` starts at
`m_t_max / m_inital_row_length` and is halved at the top of each
iteration. -/
noncomputable def init0H : ℕ → ℝ
  | 0 => (7:ℝ) / 7
  | r + 1 => init0H r / 2

noncomputable def stdEagerPs (r : ℕ) : List ℝ :=
  posLoop 7 (init0H r) (posFuel 7 (init0H r)) (init0H r)

noncomputable def stdEagerRow (r : ℕ) : List ℝ × ℕ :=
  buildRow realPrims tCrossStd (stdEagerPs r)

noncomputable def stdEagerWeights (r : ℕ) : List ℝ :=
  (stdEagerPs r).map realPrims.wt

/-- The engine state after construction with the standard strategy:
tolerance `tol`, `m_max_refinements = maxRef`, `initial_commit = ic`.
Rows `1…ic` are built eagerly; all later rows are empty until lazy
extension. -/
noncomputable def stdState (tol : ℝ) (maxRef ic : ℕ) : TableState ℝ where
  abscissas := fun n =>
    if n = 0 then stdRow0Abscissas
    else if n ≤ ic then (stdEagerRow n).1 else []
  weights := fun n =>
    if n = 0 then stdRow0Weights
    else if n ≤ ic then stdEagerWeights n else []
  firstComplements := fun n =>
    if n = 0 then 0
    else if n ≤ ic then (stdEagerRow n).2 else 0
  committed := ic
  outerSize := maxRef + 1
  maxRefinements := maxRef
  initialRowLength := 7
  tol := tol
  tMax := 7
  tCross := tCrossStd

/-- The canonical row produced at level `r` by `extend_refinements` on a
standard-strategy state (`h = 2⁻ʳ`, `t_max = 7`, crossover `tCrossStd`). -/
noncomputable def stdLazyPs (r : ℕ) : List ℝ :=
  posLoop 7 ((2:ℝ) ^ r)⁻¹ (posFuel 7 ((2:ℝ) ^ r)⁻¹) ((2:ℝ) ^ r)⁻¹

noncomputable def stdLazyRow (r : ℕ) : List ℝ × ℕ :=
  buildRow realPrims tCrossStd (stdLazyPs r)

noncomputable def stdLazyWeights (r : ℕ) : List ℝ :=
  (stdLazyPs r).map realPrims.wt

theorem init0H_eq (r : ℕ) : init0H r = ((2:ℝ) ^ r)⁻¹ := by
  induction r with
  | zero => norm_num [init0H]
  | succ r ih =>
    rw [init0H, ih, pow_succ]
    rw [div_eq_mul_inv, mul_inv]

/-- The eager rows of `init(0)` coincide with the rows `extend_refinements`
generates: the step values agree (`(t_max/7)/2ʳ = 2⁻ʳ`), and the loop is
the same. -/
theorem stdEagerPs_eq_lazy (r : ℕ) : stdEagerPs r = stdLazyPs r := by
  unfold stdEagerPs stdLazyPs
  rw [init0H_eq]

theorem stdEagerRow_eq_lazy (r : ℕ) : stdEagerRow r = stdLazyRow r := by
  unfold stdEagerRow stdLazyRow
  rw [stdEagerPs_eq_lazy]

theorem stdEagerWeights_eq_lazy (r : ℕ) : stdEagerWeights r = stdLazyWeights r := by
  unfold stdEagerWeights stdLazyWeights
  rw [stdEagerPs_eq_lazy]

/-! ### Monotone count characterisation

Along the (increasing) position list of a row, the predicate
`pos < crossover` is monotonically decreasing, so `first_complement`
(the count of positions below the crossover) is precisely the index at
which a row switches from direct to complement form. -/

theorem lt_countP_range_iff (p : ℕ → Bool)
    (hmono : ∀ i j, i ≤ j → p j = true → p i = true) :
    ∀ (N : ℕ), ∀ j < N, (j < (List.range N).countP p ↔ p j = true) := by
  intro N
  induction N with
  | zero => intro j hj; exact absurd hj (Nat.not_lt_zero j)
  | succ N ih =>
    intro j hj
    rw [List.range_succ, List.countP_append]
    have hsing : List.countP p [N] = if p N = true then 1 else 0 := by
      simp [List.countP_cons]
    by_cases hjN : j < N
    · have hiff := ih j hjN
      constructor
      · intro hlt
        by_contra hpj
        have hpj' : p j = false := by
          cases h : p j with
          | true => exact absurd h hpj
          | false => rfl
        have hle : (List.range N).countP p ≤ j := by
          by_contra hc
          exact hpj ((ih j hjN).1 (by omega))
        rw [hsing] at hlt
        by_cases hpN : p N = true
        · exact hpj (hmono j N (by omega) hpN)
        · simp [hpN] at hlt
          omega
      · intro hpj
        have := hiff.2 hpj
        omega
    · have hjeq : j = N := by omega
      subst hjeq
      constructor
      · intro hlt
        by_contra hpN
        have hpN' : p j = false := by
          cases h : p j with
          | true => exact absurd h hpN
          | false => rfl
        rw [hsing] at hlt
        simp [hpN'] at hlt
        have := List.countP_le_length (p := p) (l := List.range j)
        rw [List.length_range] at this
        omega
      · intro hpN
        have hall : (List.range j).countP p = j := by
          have : ∀ a ∈ List.range j, p a = true := by
            intro a ha
            rw [List.mem_range] at ha
            exact hmono a j (le_of_lt ha) hpN
          calc (List.range j).countP p = (List.range j).length :=
                List.countP_eq_length.2 this
            _ = j := List.length_range j
        rw [hsing, hall]
        simp [hpN]


/-! ## Reduced-precision initialisation `init(mpl::int_<1>)` (source lines 373-420)

For types with few digits and a narrow exponent range, levels 0-7 are
seeded from literal constant tables.  The float literals are embedded as
the exact rational values of their decimal spellings; the claims checked
against these rows concern only signs and the first-complement boundary,
which the decimal-to-float rounding of the source literals does not
affect.  The weight tables play no role in any claim about row structure
and are omitted. -/

set_option maxHeartbeats 2000000 in
def abscissasInit1 : List (List ℚ) := [
  [0.0, -0.04863203593, -2.252280754e-05, -4.294161056e-14, -1.167648898e-37],
  [-0.3257285078, -0.002485143543, -1.112433512e-08, -5.378491591e-23],
  [0.3772097382, -0.1404309413, -0.01295943949, -0.0003117359716, -7.952628853e-07,
   -4.714355182e-11, -5.415222824e-18, -2.040300394e-29],
  [0.1943570033, -0.4608532946, -0.219392561, -0.08512073674, -0.0260331318, -0.005944493369,
   -0.0009348035442, -9.061530486e-05, -4.683958779e-06, -1.072183876e-07, -8.572949078e-10,
   -1.767834693e-12, -6.374878495e-16, -2.442937279e-20, -5.251546473e-26, -2.789467162e-33],
  [0.09792388529, 0.2878799327, 0.4612535439, -0.3897263425, -0.2689819652, -0.1766829945,
   -0.1101085972, -0.06483914248, -0.03588783578, -0.01854517332, -0.008873007558,
   -0.003891334562, -0.001545791232, -0.0005485655647, -0.0001711779271, -4.612899437e-05,
   -1.051798518e-05, -1.982859405e-06, -3.011058474e-07, -3.576091908e-08, -3.212800902e-09,
   -2.102671378e-10, -9.606066479e-12, -2.919026641e-13, -5.586116639e-15, -6.328207135e-17,
   -3.956461339e-19, -1.260975845e-21, -1.872492175e-24, -1.170030294e-27, -2.740986178e-31,
   -2.112282721e-35],
  [0.04905596731, 0.1464179843, 0.2415663195, 0.3331422646, 0.4199521113, -0.4989866106,
   -0.4244155094, -0.356823241, -0.2964499949, -0.2433060914, -0.1972012587, -0.1577807536,
   -0.1245646024, -0.09698671849, -0.07443136593, -0.05626521395, -0.04186397729,
   -0.0306332671, -0.02202376481, -0.01554116883, -0.01075156891, -0.007283002803,
   -0.004823973845, -0.003119681872, -0.001966663685, -0.001206465701, -0.0007188880782,
   -0.0004152496485, -0.0002320284004, -0.0001251349512, -6.498007492e-05, -3.240693206e-05,
   -1.548009773e-05, -7.062123337e-06, -3.06755081e-06, -1.264528134e-06, -4.929942806e-07,
   -1.811062872e-07, -6.244592163e-08, -2.01254968e-08, -6.035865798e-09, -1.676638052e-09,
   -4.292122274e-10, -1.007222767e-10, -2.154466259e-11, -4.175393124e-12, -7.284737264e-13,
   -1.136386985e-13, -1.57355351e-14, -1.91921891e-15, -2.044959541e-16, -1.886958307e-17,
   -1.493871649e-18, -1.00469381e-19, -5.679929178e-21, -2.669103953e-22, -1.030178138e-23,
   -3.224484876e-25, -8.0747829e-27, -1.594654602e-28, -2.445723975e-30, -2.865919772e-32,
   -2.521682525e-34, -1.63551444e-36],
  [0.02453976357, 0.07352512299, 0.1222291222, 0.1704679724, 0.2180634735, 0.2648450766,
   0.3106517806, 0.3553338252, 0.3987541505, 0.440789599, 0.4813318461, -0.4797119493,
   -0.4424187717, -0.4068496464, -0.3730497919, -0.3410490083, -0.3108622749, -0.2824905325,
   -0.2559216165, -0.2311313132, -0.2080845076, -0.1867363915, -0.1670337061, -0.148915992,
   -0.1323168242, -0.1171650118, -0.1033857457, -0.09090168184, -0.07963394697, -0.069503062,
   -0.06042977607, -0.05233580938, -0.04514450419, -0.03878138485, -0.03317462969,
   -0.02825545843, -0.02395843974, -0.0202217242, -0.01698720852, -0.01420063697,
   -0.0118116462, -0.009773759532, -0.008044336997, -0.006584486831, -0.005358944287,
   -0.004335923183, -0.00348694536, -0.002786652957, -0.002212608041, -0.001745083828,
   -0.001366851359, -0.001062965166, -0.0008205510651, -0.0006285988591, -0.0004777623488,
   -0.0003601686544, -0.0002692384802, -0.0001995185689, -0.0001465272269, -0.0001066134524,
   -7.682987071e-05, -5.481938554e-05, -3.871519214e-05, -2.705357477e-05, -1.869872988e-05,
   -1.2778718e-05, -8.631551655e-06, -5.760372383e-06, -3.796652834e-06, -2.470376195e-06,
   -1.586189035e-06, -1.00458931e-06, -6.272926646e-07, -3.860114498e-07, -2.339766676e-07,
   -1.396287854e-07, -8.199520529e-08, -4.735733554e-08, -2.688676406e-08, -1.499692369e-08,
   -8.213543901e-09, -4.414366384e-09, -2.326763262e-09, -1.2020165e-09, -6.082231242e-10,
   -3.012456307e-10, -1.459438845e-10, -6.911160499e-11, -3.196678326e-11, -1.443120992e-11,
   -6.353676128e-12, -2.725950519e-12, -1.138734572e-12, -4.627734622e-13, -1.827990225e-13,
   -7.012046738e-14, -2.609605366e-14, -9.413361335e-15, -3.287925695e-15, -1.11086294e-15,
   -3.626602264e-16, -1.142787653e-16, -3.471902269e-17, -1.015781907e-17, -2.858532825e-18,
   -7.727834787e-19, -2.004423992e-19, -4.981568376e-20, -1.184668492e-20, -2.691984904e-21,
   -5.836667442e-22, -1.205661589e-22, -2.369109351e-23, -4.421339462e-24, -7.823835004e-25,
   -1.310533144e-25, -2.074345013e-26, -3.096968326e-27, -4.353200528e-28, -5.749955668e-29,
   -7.122715927e-30, -8.25783542e-31, -8.941541007e-32, -9.02279665e-33, -8.46603012e-34,
   -7.369272807e-35, -5.936632356e-36, -4.415277839e-37],
  [0.01227135512, 0.03680228095, 0.06129788941, 0.08573475488, 0.1100896299, 0.1343395153,
   0.1584617283, 0.1824339697, 0.2062343883, 0.2298416433, 0.2532349634, 0.2763942036,
   0.2992998981, 0.3219333097, 0.3442764756, 0.3663122492, 0.3880243378, 0.4093973357,
   0.4304167537, 0.4510690435, 0.4713416183, 0.4912228687, -0.489297826, -0.4702300899,
   -0.4515825479, -0.4333628262, -0.4155775577, -0.39823239, -0.3813319982, -0.3648801001,
   -0.3488794756, -0.3333319877, -0.318238608, -0.3035994429, -0.2894137636, -0.275680037,
   -0.2623959593, -0.2495584902, -0.2371638893, -0.2252077531, -0.2136850525, -0.2025901721,
   -0.1919169483, -0.1816587092, -0.1718083133, -0.1623581887, -0.1533003716, -0.1446265448,
   -0.1363280753, -0.1283960505, -0.120821315, -0.113594505, -0.1067060822, -0.1001463668,
   -0.09390556883, -0.08797381831, -0.08234119416, -0.07699775172, -0.07193354881,
   -0.06713867034, -0.0626032516, -0.0583175, -0.0542717154, -0.050456309, -0.0468618209,
   -0.0434789361, -0.0402984993, -0.03731152826, -0.0345092259, -0.03188299107, -0.02942442821,
   -0.02712535566, -0.02497781299, -0.02297406711, -0.02110661737, -0.01936819969,
   -0.01775178968, -0.01625060483, -0.01485810598, -0.01356799776, -0.01237422849,
   -0.01127098916, -0.01025271192, -0.009314067826, -0.008449964034, -0.007655540506,
   -0.006926166179, -0.006257434709, -0.005645159804, -0.005085370197, -0.004574304294,
   -0.004108404533, -0.003684311494, -0.003298857801, -0.002949061834, -0.002632121306,
   -0.002345406714, -0.002086454715, -0.001852961444, -0.001642775797, -0.001453892723,
   -0.001284446528, -0.001132704236, -0.0009970590063, -0.0008760236476, -0.0007682242321,
   -0.0006723938372, -0.000587366425, -0.0005120708762, -0.0004455251889, -0.0003868308567,
   -0.0003351674323, -0.0002897872882, -0.0002500105784, -0.0002152204083, -0.0001848582177,
   -0.0001584193765, -0.0001354489984, -0.0001155379702, -9.8319198e-05, -8.346406605e-05,
   -7.067910812e-05, -5.970288552e-05, -5.030306831e-05, -4.227371392e-05, -3.543273737e-05,
   -2.961956641e-05, -2.469297451e-05, -2.052908425e-05, -1.701953324e-05, -1.406979453e-05,
   -1.159764317e-05, -9.531760786e-06, -7.810469566e-06, -6.380587461e-06, -5.196396351e-06,
   -4.218715072e-06, -3.414069429e-06, -2.753951574e-06, -2.214161365e-06, -1.774222689e-06,
   -1.416868016e-06, -1.127584838e-06, -8.942180042e-07, -7.066223315e-07, -5.563602711e-07,
   -4.364397681e-07, -3.410878407e-07, -2.65555767e-07, -2.059521239e-07, -1.591002641e-07,
   -1.224171449e-07, -9.381073151e-08, -7.159348586e-08, -5.440972705e-08, -4.117489851e-08,
   -3.102500976e-08, -2.327473287e-08, -1.738282654e-08, -1.292373523e-08, -9.564367214e-09,
   -7.045195508e-09, -5.164949276e-09, -3.768272997e-09, -2.735826254e-09, -1.976380568e-09,
   -1.420541964e-09, -1.015790099e-09, -7.225780068e-10, -5.112816947e-10, -3.598270551e-10,
   -2.518536224e-10, -1.753014775e-10, -1.213298105e-10, -8.349395075e-11, -5.712266027e-11,
   -3.8849686e-11, -2.626342738e-11, -1.764649978e-11, -1.178329832e-11, -7.818680628e-12,
   -5.154836404e-12, -3.376501461e-12, -2.19707447e-12, -1.420047367e-12, -9.115800793e-13,
   -5.811306251e-13, -3.67867911e-13, -2.312068904e-13, -1.442617249e-13, -8.934966665e-14,
   -5.492567772e-14, -3.35078831e-14, -2.02840764e-14, -1.218279513e-14, -7.258853736e-15,
   -4.290062787e-15, -2.514652539e-15, -1.461687113e-15, -8.424330958e-16, -4.81351759e-16,
   -2.726317943e-16, -1.530442297e-16, -8.513785725e-17, -4.692795039e-17, -2.562597595e-17,
   -1.386133467e-17, -7.425750192e-18, -3.939309402e-18, -2.069079146e-18, -1.075828622e-18,
   -5.536671017e-19, -2.819834004e-19, -1.421006375e-19, -7.084243878e-20, -3.493350557e-20,
   -1.703597751e-20, -8.214706044e-21, -3.915973438e-21, -1.845149816e-21, -8.591874581e-22,
   -3.953006958e-22, -1.7966698e-22, -8.065408821e-23, -3.575337212e-23, -1.564782132e-23,
   -6.760041764e-24, -2.882136323e-24, -1.212436233e-24, -5.031421831e-25, -2.059286312e-25,
   -8.310787798e-26, -3.306518068e-26, -1.296597346e-26, -5.010091032e-27, -1.907179385e-27,
   -7.150567334e-28, -2.639906037e-28, -9.594664542e-29, -3.432078099e-29, -1.207985066e-29,
   -4.182464721e-30, -1.424153707e-30, -4.767833382e-31, -1.568949178e-31, -5.073438855e-32,
   -1.611691916e-32, -5.028356694e-33, -1.540320437e-33, -4.631392443e-34, -1.366470225e-34,
   -3.955008527e-35, -1.122591825e-35, -3.123848743e-36, -8.519540247e-37, -2.276473481e-37],
]

def firstComplementsInit1 : List ℕ := [1, 0, 1, 1, 3, 5, 11, 22]

/-! ## Table-cache state lemmas

The data `extend_refinements` appends for level `r` is a pure function of
the level index and the fixed constants `t_max`, `t_crossover` (and the
numeric primitives): -/

/-- The abscissa entries and first-complement count appended for level `r`. -/
def lazyRowA (P : Prims K) [FloorRing K] (tmax cross : K) (r : ℕ) : List K × ℕ :=
  buildRow P cross
    (posLoop tmax ((2:K) ^ r)⁻¹ (posFuel tmax ((2:K) ^ r)⁻¹) ((2:K) ^ r)⁻¹)

/-- The weight entries appended for level `r`. -/
def lazyRowW (P : Prims K) [FloorRing K] (tmax : K) (r : ℕ) : List K :=
  (posLoop tmax ((2:K) ^ r)⁻¹ (posFuel tmax ((2:K) ^ r)⁻¹) ((2:K) ^ r)⁻¹).map P.wt

theorem stdLazyRow_eq (r : ℕ) : stdLazyRow r = lazyRowA realPrims 7 tCrossStd r := rfl

theorem stdLazyWeights_eq (r : ℕ) : stdLazyWeights r = lazyRowW realPrims 7 r := rfl

section StateLemmas

variable [FloorRing K] (P : Prims K) (s : TableState K)

theorem extend_committed : (extendRefinements P s).committed = s.committed + 1 := rfl

theorem extend_config :
    (extendRefinements P s).outerSize = s.outerSize ∧
    (extendRefinements P s).maxRefinements = s.maxRefinements ∧
    (extendRefinements P s).tol = s.tol ∧
    (extendRefinements P s).tMax = s.tMax ∧
    (extendRefinements P s).tCross = s.tCross ∧
    (extendRefinements P s).initialRowLength = s.initialRowLength :=
  ⟨rfl, rfl, rfl, rfl, rfl, rfl⟩

theorem extend_abscissas_other {n : ℕ} (hn : n ≠ s.committed + 1) :
    (extendRefinements P s).abscissas n = s.abscissas n := by
  unfold extendRefinements
  exact Function.update_noteq hn _ _

theorem extend_weights_other {n : ℕ} (hn : n ≠ s.committed + 1) :
    (extendRefinements P s).weights n = s.weights n := by
  unfold extendRefinements
  exact Function.update_noteq hn _ _

theorem extend_firstComplements_other {n : ℕ} (hn : n ≠ s.committed + 1) :
    (extendRefinements P s).firstComplements n = s.firstComplements n := by
  unfold extendRefinements
  exact Function.update_noteq hn _ _

theorem extend_abscissas_new :
    (extendRefinements P s).abscissas (s.committed + 1) =
      s.abscissas (s.committed + 1) ++
        (lazyRowA P s.tMax s.tCross (s.committed + 1)).1 := by
  unfold extendRefinements lazyRowA
  exact Function.update_same _ _ _

theorem extend_weights_new :
    (extendRefinements P s).weights (s.committed + 1) =
      s.weights (s.committed + 1) ++ lazyRowW P s.tMax (s.committed + 1) := by
  unfold extendRefinements lazyRowW
  exact Function.update_same _ _ _

theorem extend_firstComplements_new :
    (extendRefinements P s).firstComplements (s.committed + 1) =
      (lazyRowA P s.tMax s.tCross (s.committed + 1)).2 := by
  unfold extendRefinements lazyRowA
  exact Function.update_same _ _ _

/-- Rows at or below the committed level are untouched by extension. -/
theorem extend_preserves {n : ℕ} (hn : n ≤ s.committed) :
    (extendRefinements P s).abscissas n = s.abscissas n ∧
    (extendRefinements P s).weights n = s.weights n ∧
    (extendRefinements P s).firstComplements n = s.firstComplements n :=
  ⟨extend_abscissas_other P s (by omega), extend_weights_other P s (by omega),
   extend_firstComplements_other P s (by omega)⟩

/-- What one accessor call does to the state: nothing, or a single
extension. -/
theorem accessor_states (m : ℕ) :
    (getAbscissaRow P m s).2 =
      (if s.committed < m then extendRefinements P s else s) ∧
    (getWeightRow P m s).2 =
      (if s.committed < m then extendRefinements P s else s) ∧
    (getFirstComplementIndex P m s).2 =
      (if s.committed < m then extendRefinements P s else s) :=
  ⟨rfl, rfl, rfl⟩

/-- A single conditional step (accessor body) preserves committed rows,
configuration, and never decreases `committed`. -/
theorem condExtend_preserves (m : ℕ) {n : ℕ} (hn : n ≤ s.committed) :
    ((if s.committed < m then extendRefinements P s else s).abscissas n
        = s.abscissas n) ∧
    ((if s.committed < m then extendRefinements P s else s).weights n
        = s.weights n) ∧
    ((if s.committed < m then extendRefinements P s else s).firstComplements n
        = s.firstComplements n) ∧
    s.committed ≤ (if s.committed < m then extendRefinements P s else s).committed ∧
    (if s.committed < m then extendRefinements P s else s).outerSize = s.outerSize ∧
    (if s.committed < m then extendRefinements P s else s).maxRefinements
        = s.maxRefinements ∧
    (if s.committed < m then extendRefinements P s else s).tol = s.tol ∧
    (if s.committed < m then extendRefinements P s else s).tMax = s.tMax ∧
    (if s.committed < m then extendRefinements P s else s).tCross = s.tCross ∧
    (if s.committed < m then extendRefinements P s else s).initialRowLength
        = s.initialRowLength := by
  by_cases h : s.committed < m
  · rw [if_pos h]
    obtain ⟨h1, h2, h3⟩ := extend_preserves P s hn
    exact ⟨h1, h2, h3, by rw [extend_committed]; omega, rfl, rfl, rfl, rfl, rfl, rfl⟩
  · rw [if_neg h]
    exact ⟨rfl, rfl, rfl, le_refl _, rfl, rfl, rfl, rfl, rfl, rfl⟩

end StateLemmas

/-! ## Per-iteration specifications of the refinement loop -/

section LoopLemmas

variable [FloorRing K] (P : Prims K)

/-- Preservation relation between the table state at the start of an
operation and afterwards: committed rows are never modified, the
configuration is fixed, and `committed` never decreases. -/
def StatePres (s s' : TableState K) : Prop :=
  s.committed ≤ s'.committed ∧
  s'.outerSize = s.outerSize ∧
  s'.maxRefinements = s.maxRefinements ∧
  s'.tol = s.tol ∧
  s'.tMax = s.tMax ∧
  s'.tCross = s.tCross ∧
  s'.initialRowLength = s.initialRowLength ∧
  ∀ n, n ≤ s.committed →
    s'.abscissas n = s.abscissas n ∧
    s'.weights n = s.weights n ∧
    s'.firstComplements n = s.firstComplements n

theorem StatePres.refl (s : TableState K) : StatePres s s :=
  ⟨le_refl _, rfl, rfl, rfl, rfl, rfl, rfl, fun _ _ => ⟨rfl, rfl, rfl⟩⟩

theorem StatePres.trans {s₁ s₂ s₃ : TableState K}
    (h12 : StatePres s₁ s₂) (h23 : StatePres s₂ s₃) : StatePres s₁ s₃ := by
  obtain ⟨hc, ho, hm, ht, hx, hr, hi, hrows⟩ := h12
  obtain ⟨hc', ho', hm', ht', hx', hr', hi', hrows'⟩ := h23
  refine ⟨le_trans hc hc', ho'.trans ho, hm'.trans hm, ht'.trans ht,
    hx'.trans hx, hr'.trans hr, hi'.trans hi, ?_⟩
  intro n hn
  obtain ⟨h1, h2, h3⟩ := hrows n hn
  obtain ⟨h1', h2', h3'⟩ := hrows' n (le_trans hn hc)
  exact ⟨h1'.trans h1, h2'.trans h2, h3'.trans h3⟩

theorem condExtend_statePres (s : TableState K) (m : ℕ) :
    StatePres s (if s.committed < m then extendRefinements P s else s) := by
  by_cases h : s.committed < m
  · rw [if_pos h]
    refine ⟨by rw [extend_committed]; omega, rfl, rfl, rfl, rfl, rfl, rfl, ?_⟩
    intro n hn
    exact extend_preserves P s hn
  · rw [if_neg h]
    exact StatePres.refl s

theorem getAbscissaRow_statePres (s : TableState K) (m : ℕ) :
    StatePres s (getAbscissaRow P m s).2 :=
  condExtend_statePres P s m

theorem getWeightRow_statePres (s : TableState K) (m : ℕ) :
    StatePres s (getWeightRow P m s).2 :=
  condExtend_statePres P s m

theorem getFirstComplementIndex_statePres (s : TableState K) (m : ℕ) :
    StatePres s (getFirstComplementIndex P m s).2 :=
  condExtend_statePres P s m

/-- The three row accessor calls of one loop iteration preserve the
incoming state's committed data. -/
theorem accessTriple_pres (s : TableState K) (m : ℕ) :
    StatePres s
      (getFirstComplementIndex P m
        (getWeightRow P m (getAbscissaRow P m s).2).2).2 :=
  StatePres.trans
    (StatePres.trans (getAbscissaRow_statePres P s m)
      (getWeightRow_statePres P _ m))
    (getFirstComplementIndex_statePres P _ m)

theorem iterData_s3 (f : K → K → K) (thrL thrR : K) (a : LoopAcc K) :
    (iterData P f thrL thrR a).s3 =
      (getFirstComplementIndex P a.k
        (getWeightRow P a.k (getAbscissaRow P a.k a.s).2).2).2 := rfl

theorem iterData_s3_pres (f : K → K → K) (thrL thrR : K) (a : LoopAcc K) :
    StatePres a.s (iterData P f thrL thrR a).s3 := by
  rw [iterData_s3]
  exact accessTriple_pres P a.s a.k

theorem loopBody_next_spec (f : K → K → K) (thrL thrR : K) (a a' : LoopAcc K)
    (h : loopBody P f thrL thrR a = StepRes.next a') :
    P.isfinite a'.I1 = true ∧
    a'.checks = a.checks ++ [a'.I1] ∧
    a'.k = a.k + 1 ∧
    a'.iterations = a.iterations + 1 ∧
    a'.I1 = (iterData P f thrL thrR a).I1 ∧
    a'.L1 = (iterData P f thrL thrR a).L1 ∧
    a'.err = (iterData P f thrL thrR a).err ∧
    a'.s = (iterData P f thrL thrR a).s3 ∧
    a'.calls = (iterData P f thrL thrR a).calls ∧
    a'.maxLpos = (iterData P f thrL thrR a).maxLpos ∧
    a'.maxRpos = (iterData P f thrL thrR a).maxRpos ∧
    ¬(4 < a'.k ∧ a'.err ≤ a.s.tol * a'.L1) ∧
    StatePres a.s a'.s := by
  have hpres := iterData_s3_pres P f thrL thrR a
  simp only [loopBody] at h
  split at h
  · exact absurd h (by simp)
  · next hfin =>
    split at h
    · exact absurd h (by simp)
    · next htol =>
      injection h with h2
      subst h2
      have htoleq : (iterData P f thrL thrR a).s3.tol = a.s.tol := hpres.2.2.2.1
      rw [htoleq] at htol
      refine ⟨?_, rfl, rfl, rfl, rfl, rfl, rfl, rfl, rfl, rfl, rfl, htol, hpres⟩
      cases hb : P.isfinite (iterData P f thrL thrR a).I1
      · exact absurd hb hfin
      · rfl

theorem loopBody_break_spec (f : K → K → K) (thrL thrR : K) (a a' : LoopAcc K)
    (h : loopBody P f thrL thrR a = StepRes.breakTol a') :
    P.isfinite a'.I1 = true ∧
    a'.checks = a.checks ++ [a'.I1] ∧
    a'.k = a.k + 1 ∧
    a'.iterations = a.iterations + 1 ∧
    (4 < a'.k ∧ a'.err ≤ a.s.tol * a'.L1) ∧
    a'.calls = (iterData P f thrL thrR a).calls ∧
    StatePres a.s a'.s := by
  have hpres := iterData_s3_pres P f thrL thrR a
  simp only [loopBody] at h
  split at h
  · exact absurd h (by simp)
  · next hfin =>
    split at h
    · next htol =>
      injection h with h2
      subst h2
      have htoleq : (iterData P f thrL thrR a).s3.tol = a.s.tol := hpres.2.2.2.1
      rw [htoleq] at htol
      refine ⟨?_, rfl, rfl, rfl, htol, rfl, hpres⟩
      cases hb : P.isfinite (iterData P f thrL thrR a).I1
      · exact absurd hb hfin
      · rfl
    · exact absurd h (by simp)

theorem loopBody_error_spec (f : K → K → K) (thrL thrR : K) (a : LoopAcc K)
    (out : IntOut K) (h : loopBody P f thrL thrR a = StepRes.errorRet out) :
    (∃ e, out.result = Except.error e ∧ P.isfinite e = false ∧
      out.reports = [e] ∧ out.checks = a.checks ++ [e]) ∧
    out.errorOut = none ∧
    out.l1Out = none ∧
    out.iterations = a.iterations + 1 ∧
    out.finalK = a.k + 1 ∧
    out.brokeTol = false ∧
    out.calls = (iterData P f thrL thrR a).calls ∧
    StatePres a.s out.finalState := by
  have hpres := iterData_s3_pres P f thrL thrR a
  simp only [loopBody] at h
  split at h
  · next hfin =>
    injection h with h2
    subst h2
    exact ⟨⟨(iterData P f thrL thrR a).I1, rfl, hfin, rfl, rfl⟩,
      rfl, rfl, rfl, rfl, rfl, rfl, hpres⟩
  · split at h
    · exact absurd h (by simp)
    · exact absurd h (by simp)

end LoopLemmas

/-! ## Whole-loop inductions -/

section LoopInduction

variable [FloorRing K] (P : Prims K) (f : K → K → K) (wE wL : Bool) (thrL thrR : K)

theorem finishNormal_spec (b : Bool) (a : LoopAcc K) :
    (finishNormal (K := K) wE wL b a).result = Except.ok a.I1 ∧
    (finishNormal (K := K) wE wL b a).errorOut = (if wE then some a.err else none) ∧
    (finishNormal (K := K) wE wL b a).l1Out = (if wL then some a.L1 else none) ∧
    (finishNormal (K := K) wE wL b a).reports = [] ∧
    (finishNormal (K := K) wE wL b a).checks = a.checks ∧
    (finishNormal (K := K) wE wL b a).iterations = a.iterations ∧
    (finishNormal (K := K) wE wL b a).finalK = a.k ∧
    (finishNormal (K := K) wE wL b a).brokeTol = b ∧
    (finishNormal (K := K) wE wL b a).finalErr = a.err ∧
    (finishNormal (K := K) wE wL b a).finalL1 = a.L1 ∧
    (finishNormal (K := K) wE wL b a).finalState = a.s :=
  ⟨rfl, rfl, rfl, rfl, rfl, rfl, rfl, rfl, rfl, rfl, rfl⟩

/-- The refinement loop never modifies committed rows or the
configuration. -/
theorem integrateLoop_statePres :
    ∀ (fuel : ℕ) (a : LoopAcc K),
      StatePres a.s (integrateLoop P f wE wL thrL thrR fuel a).finalState := by
  intro fuel
  induction fuel with
  | zero => intro a; exact StatePres.refl _
  | succ fuel ih =>
    intro a
    rw [integrateLoop]
    split
    · cases hb : loopBody P f thrL thrR a with
      | errorRet out =>
        have hspec := loopBody_error_spec P f thrL thrR a out hb
        exact hspec.2.2.2.2.2.2.2
      | breakTol a' =>
        have hspec := loopBody_break_spec P f thrL thrR a a' hb
        exact hspec.2.2.2.2.2.2
      | next a' =>
        have hspec := loopBody_next_spec P f thrL thrR a a' hb
        exact StatePres.trans hspec.2.2.2.2.2.2.2.2.2.2.2.2 (ih a')
    · exact StatePres.refl _

/-- Error/normal-return characterisation of the refinement loop: an error
return happens at the first failing `isfinite` check, reports exactly that
value once, and stores nothing in the output slots; a normal return passes
every check, reports nothing, and stores the error and L1 estimates
through the requested slots. -/
theorem integrateLoop_error_char :
    ∀ (fuel : ℕ) (a : LoopAcc K),
      (∀ c ∈ a.checks, P.isfinite c = true) →
      ((∀ e, (integrateLoop P f wE wL thrL thrR fuel a).result = Except.error e →
        P.isfinite e = false ∧
        (integrateLoop P f wE wL thrL thrR fuel a).reports = [e] ∧
        (∃ cs, (integrateLoop P f wE wL thrL thrR fuel a).checks = cs ++ [e] ∧
          ∀ c ∈ cs, P.isfinite c = true) ∧
        (integrateLoop P f wE wL thrL thrR fuel a).errorOut = none ∧
        (integrateLoop P f wE wL thrL thrR fuel a).l1Out = none) ∧
      (∀ v, (integrateLoop P f wE wL thrL thrR fuel a).result = Except.ok v →
        (integrateLoop P f wE wL thrL thrR fuel a).reports = [] ∧
        (∀ c ∈ (integrateLoop P f wE wL thrL thrR fuel a).checks,
          P.isfinite c = true) ∧
        (integrateLoop P f wE wL thrL thrR fuel a).errorOut =
          (if wE then some (integrateLoop P f wE wL thrL thrR fuel a).finalErr
           else none) ∧
        (integrateLoop P f wE wL thrL thrR fuel a).l1Out =
          (if wL then some (integrateLoop P f wE wL thrL thrR fuel a).finalL1
           else none))) := by
  intro fuel
  induction fuel with
  | zero =>
    intro a hacc
    obtain ⟨hres, hEO, hLO, hrep, hchk, _, _, _, hfe, hfl, _⟩ :=
      finishNormal_spec (K := K) wE wL false a
    constructor
    · intro e he
      rw [integrateLoop] at he
      rw [hres] at he
      exact absurd he (by simp)
    · intro v _
      rw [integrateLoop]
      rw [integrateLoop] at *
      exact ⟨hrep, by rw [hchk]; exact hacc, by rw [hEO, hfe], by rw [hLO, hfl]⟩
  | succ fuel ih =>
    intro a hacc
    rw [integrateLoop]
    split
    · cases hb : loopBody P f thrL thrR a with
      | errorRet out =>
        obtain ⟨⟨e0, he0, hfin0, hrep0, hchk0⟩, hEO, hLO, _, _, _, _, _⟩ :=
          loopBody_error_spec P f thrL thrR a out hb
        constructor
        · intro e he
          rw [he0] at he
          have : e0 = e := by
            injection he
          subst this
          exact ⟨hfin0, hrep0, ⟨a.checks, hchk0, hacc⟩, hEO, hLO⟩
        · intro v hv
          rw [he0] at hv
          exact absurd hv (by simp)
      | breakTol a' =>
        obtain ⟨hfin, hchk, _, _, _, _, _⟩ := loopBody_break_spec P f thrL thrR a a' hb
        obtain ⟨hres, hEO, hLO, hrep, hchkN, _, _, _, hfe, hfl, _⟩ :=
          finishNormal_spec (K := K) wE wL true a'
        constructor
        · intro e he
          rw [hres] at he
          exact absurd he (by simp)
        · intro v _
          refine ⟨hrep, ?_, by rw [hEO, hfe], by rw [hLO, hfl]⟩
          rw [hchkN, hchk]
          intro c hc
          rcases List.mem_append.1 hc with h1 | h2
          · exact hacc c h1
          · rw [List.mem_singleton] at h2
            subst h2
            exact hfin
      | next a' =>
        obtain ⟨hfin, hchk, _, _, _, _, _, _, _, _, _, _, _⟩ :=
          loopBody_next_spec P f thrL thrR a a' hb
        apply ih a'
        rw [hchk]
        intro c hc
        rcases List.mem_append.1 hc with h1 | h2
        · exact hacc c h1
        · rw [List.mem_singleton] at h2
          subst h2
          exact hfin
    · obtain ⟨hres, hEO, hLO, hrep, hchk, _, _, _, hfe, hfl, _⟩ :=
        finishNormal_spec (K := K) wE wL false a
      constructor
      · intro e he
        rw [hres] at he
        exact absurd he (by simp)
      · intro v _
        exact ⟨hrep, by rw [hchk]; exact hacc, by rw [hEO, hfe], by rw [hLO, hfl]⟩

end LoopInduction

section StopInduction

variable [FloorRing K] (P : Prims K) (f : K → K → K) (wE wL : Bool) (thrL thrR : K)

/-- Stopping characterisation of the refinement loop.  With sufficient fuel
(as passed by `integrate`) and a not-yet-broken entry accumulator: `k`
only grows, one iteration is counted per level, a tolerance break can only
happen past level 4 with the delta within tolerance, and a normal
non-break return means the loop condition failed. -/
theorem integrateLoop_stop_char :
    ∀ (fuel : ℕ) (a : LoopAcc K),
      max 4 (min a.s.outerSize a.s.maxRefinements) ≤ a.k + fuel →
      ¬(4 < a.k ∧ a.err ≤ a.s.tol * a.L1) →
      (a.k ≤ (integrateLoop P f wE wL thrL thrR fuel a).finalK ∧
       (integrateLoop P f wE wL thrL thrR fuel a).iterations =
         a.iterations + ((integrateLoop P f wE wL thrL thrR fuel a).finalK - a.k) ∧
       ((integrateLoop P f wE wL thrL thrR fuel a).brokeTol = true →
         4 < (integrateLoop P f wE wL thrL thrR fuel a).finalK ∧
         (integrateLoop P f wE wL thrL thrR fuel a).finalErr ≤
           a.s.tol * (integrateLoop P f wE wL thrL thrR fuel a).finalL1) ∧
       ((integrateLoop P f wE wL thrL thrR fuel a).brokeTol = false →
        ∀ v, (integrateLoop P f wE wL thrL thrR fuel a).result = Except.ok v →
         ¬((integrateLoop P f wE wL thrL thrR fuel a).finalK < 4 ∨
           ((integrateLoop P f wE wL thrL thrR fuel a).finalK < a.s.outerSize ∧
            (integrateLoop P f wE wL thrL thrR fuel a).finalK < a.s.maxRefinements)) ∧
         ¬(4 < (integrateLoop P f wE wL thrL thrR fuel a).finalK ∧
           (integrateLoop P f wE wL thrL thrR fuel a).finalErr ≤
             a.s.tol * (integrateLoop P f wE wL thrL thrR fuel a).finalL1))) := by
  intro fuel
  induction fuel with
  | zero =>
    intro a hfuel hpre
    rw [integrateLoop]
    refine ⟨le_refl _, ?_, ?_, ?_⟩
    · show a.iterations = a.iterations + (a.k - a.k)
      omega
    · intro h
      exact absurd h (by simp [finishNormal])
    · intro _ v _
      show ¬(a.k < 4 ∨ (a.k < a.s.outerSize ∧ a.k < a.s.maxRefinements)) ∧
        ¬(4 < a.k ∧ a.err ≤ a.s.tol * a.L1)
      exact ⟨by omega, hpre⟩
  | succ fuel ih =>
    intro a hfuel hpre
    rw [integrateLoop]
    split
    · next hguard =>
      cases hb : loopBody P f thrL thrR a with
      | errorRet out =>
        obtain ⟨⟨e0, he0, _, _, _⟩, _, _, hit, hfk, hbt, _, _⟩ :=
          loopBody_error_spec P f thrL thrR a out hb
        refine ⟨by rw [hfk]; omega, by rw [hfk, hit]; omega, ?_, ?_⟩
        · intro h
          rw [hbt] at h
          cases h
        · intro _ v hv
          rw [he0] at hv
          exact absurd hv (by simp)
      | breakTol a' =>
        obtain ⟨_, _, hk, hit, hcond, _, hpres⟩ := loopBody_break_spec P f thrL thrR a a' hb
        refine ⟨?_, ?_, ?_, ?_⟩
        · show a.k ≤ a'.k
          omega
        · show a'.iterations = a.iterations + (a'.k - a.k)
          omega
        · intro _
          show 4 < a'.k ∧ a'.err ≤ a.s.tol * a'.L1
          exact hcond
        · intro hfalse
          exact absurd hfalse (by simp [finishNormal])
      | next a' =>
        obtain ⟨_, _, hk, hit, _, _, _, hs, _, _, _, hcond, hpres⟩ :=
          loopBody_next_spec P f thrL thrR a a' hb
        have hOS : a'.s.outerSize = a.s.outerSize := hpres.2.1
        have hMR : a'.s.maxRefinements = a.s.maxRefinements := hpres.2.2.1
        have hTol : a'.s.tol = a.s.tol := hpres.2.2.2.1
        have hfuel2 : max 4 (min a'.s.outerSize a'.s.maxRefinements) ≤ a'.k + fuel := by
          rw [hOS, hMR, hk]
          omega
        have hpre2 : ¬(4 < a'.k ∧ a'.err ≤ a'.s.tol * a'.L1) := by
          rw [hTol]
          exact hcond
        obtain ⟨ih1, ih2, ih3, ih4⟩ := ih a' hfuel2 hpre2
        dsimp only
        refine ⟨by omega, by omega, ?_, ?_⟩
        · intro hbroke
          obtain ⟨hh1, hh2⟩ := ih3 hbroke
          rw [hTol] at hh2
          exact ⟨by omega, hh2⟩
        · intro hbroke v hv
          obtain ⟨hh1, hh2⟩ := ih4 hbroke v hv
          rw [hTol] at hh2
          rw [hOS, hMR] at hh1
          exact ⟨hh1, hh2⟩
    · next hguard =>
      refine ⟨le_refl _, ?_, ?_, ?_⟩
      · show a.iterations = a.iterations + (a.k - a.k)
        omega
      · intro h
        exact absurd h (by simp [finishNormal])
      · intro _ v _
        show ¬(a.k < 4 ∨ (a.k < a.s.outerSize ∧ a.k < a.s.maxRefinements)) ∧
          ¬(4 < a.k ∧ a.err ≤ a.s.tol * a.L1)
        exact ⟨hguard, hpre⟩

/-- The loop never advances `k` past the loop bound. -/
theorem integrateLoop_finalK_le :
    ∀ (fuel : ℕ) (a : LoopAcc K),
      (integrateLoop P f wE wL thrL thrR fuel a).finalK ≤
        max a.k (max 4 (min a.s.outerSize a.s.maxRefinements)) := by
  intro fuel
  induction fuel with
  | zero =>
    intro a
    rw [integrateLoop]
    show a.k ≤ _
    exact le_max_left _ _
  | succ fuel ih =>
    intro a
    rw [integrateLoop]
    split
    · next hguard =>
      cases hb : loopBody P f thrL thrR a with
      | errorRet out =>
        obtain ⟨_, _, _, _, hfk, _, _, _⟩ := loopBody_error_spec P f thrL thrR a out hb
        rw [hfk]
        omega
      | breakTol a' =>
        obtain ⟨_, _, hk, _, _, _, _⟩ := loopBody_break_spec P f thrL thrR a a' hb
        show a'.k ≤ _
        omega
      | next a' =>
        obtain ⟨_, _, hk, _, _, _, _, _, _, _, _, _, hpres⟩ :=
          loopBody_next_spec P f thrL thrR a a' hb
        have hOS : a'.s.outerSize = a.s.outerSize := hpres.2.1
        have hMR : a'.s.maxRefinements = a.s.maxRefinements := hpres.2.2.1
        have := ih a'
        rw [hOS, hMR, hk] at this
        dsimp only
        omega
    · next hguard =>
      show a.k ≤ _
      exact le_max_left _ _

end StopInduction

/-! ## Claim theorems: error handling and cache immutability -/

section ClaimsGeneric

variable [FloorRing K] (P : Prims K) (s : TableState K) (f : K → K → K)
variable (wE wL : Bool) (thrL thrR : K)

/-- The loop accumulator `integrate` enters its refinement loop with:
`k = 1`, the level-0 estimates, the walk results, and empty ghost logs. -/
def initAcc (P : Prims K) (s : TableState K) (f : K → K → K) (thrL thrR : K) :
    LoopAcc K :=
  { k := 1
    I1 := (level0Loop P f (s.abscissas 0) (s.weights 0)
      (walkBack (s.abscissas 0) thrL ((s.abscissas 0).length - 1))
      (walkBack (s.abscissas 0) thrR ((s.abscissas 0).length - 1))
      (s.abscissas 0).length 1
      (P.halfPi * f 0 1, |P.halfPi * f 0 1|, [⟨Side.center, 0, 1⟩])).1
    L1 := (level0Loop P f (s.abscissas 0) (s.weights 0)
      (walkBack (s.abscissas 0) thrL ((s.abscissas 0).length - 1))
      (walkBack (s.abscissas 0) thrR ((s.abscissas 0).length - 1))
      (s.abscissas 0).length 1
      (P.halfPi * f 0 1, |P.halfPi * f 0 1|, [⟨Side.center, 0, 1⟩])).2.1
    h := s.tMax / (s.initialRowLength : K)
    err := 0
    maxLpos := walkBack (s.abscissas 0) thrL ((s.abscissas 0).length - 1)
    maxRpos := walkBack (s.abscissas 0) thrR ((s.abscissas 0).length - 1)
    s := s
    calls := (level0Loop P f (s.abscissas 0) (s.weights 0)
      (walkBack (s.abscissas 0) thrL ((s.abscissas 0).length - 1))
      (walkBack (s.abscissas 0) thrR ((s.abscissas 0).length - 1))
      (s.abscissas 0).length 1
      (P.halfPi * f 0 1, |P.halfPi * f 0 1|, [⟨Side.center, 0, 1⟩])).2.2
    checks := []
    iterations := 0 }

theorem integrate_def :
    integrate P s f wE wL thrL thrR =
      integrateLoop P f wE wL thrL thrR
        (max 4 (min s.outerSize s.maxRefinements)) (initAcc P s f thrL thrR) :=
  rfl

theorem initAcc_k : (initAcc P s f thrL thrR).k = 1 := rfl

theorem initAcc_iterations : (initAcc P s f thrL thrR).iterations = 0 := rfl

theorem initAcc_checks : (initAcc P s f thrL thrR).checks = [] := rfl

theorem initAcc_s : (initAcc P s f thrL thrR).s = s := rfl

theorem integrate_statePres :
    StatePres s (integrate P s f wE wL thrL thrR).finalState := by
  rw [integrate_def]
  exact integrateLoop_statePres P f wE wL thrL thrR _ (initAcc P s f thrL thrR)

/-- C2 — `integrate` reports an evaluation error exactly when the running
signed estimate fails an `isfinite` check: on the first failing per-level
check it returns at once via the error report carrying the offending value
(one report, no further refinement — the failing check is the last one
performed); if every check passes, no error is reported and the final
estimate is returned normally. -/
theorem integrate_error_report :
    (∀ e, (integrate P s f wE wL thrL thrR).result = Except.error e →
      P.isfinite e = false ∧
      (integrate P s f wE wL thrL thrR).reports = [e] ∧
      (∃ cs, (integrate P s f wE wL thrL thrR).checks = cs ++ [e] ∧
        ∀ c ∈ cs, P.isfinite c = true)) ∧
    (∀ v, (integrate P s f wE wL thrL thrR).result = Except.ok v →
      (integrate P s f wE wL thrL thrR).reports = [] ∧
      ∀ c ∈ (integrate P s f wE wL thrL thrR).checks, P.isfinite c = true) := by
  rw [integrate_def]
  have h := integrateLoop_error_char P f wE wL thrL thrR
    (max 4 (min s.outerSize s.maxRefinements)) (initAcc P s f thrL thrR)
    (by rw [initAcc_checks]; intro c hc; exact absurd hc (List.not_mem_nil c))
  constructor
  · intro e he
    obtain ⟨h1, h2, h3, _, _⟩ := h.1 e he
    exact ⟨h1, h2, h3⟩
  · intro v hv
    obtain ⟨h1, h2, _, _⟩ := h.2 v hv
    exact ⟨h1, h2⟩

/-- C10 — if `integrate` aborts with an evaluation error, the caller's
error and L1 output slots are never stored to (they are written only on
the normal return path, and only when the corresponding pointer was
supplied). -/
theorem error_path_leaves_outputs_unwritten :
    (∀ e, (integrate P s f wE wL thrL thrR).result = Except.error e →
      (integrate P s f wE wL thrL thrR).errorOut = none ∧
      (integrate P s f wE wL thrL thrR).l1Out = none) ∧
    (∀ v, (integrate P s f wE wL thrL thrR).result = Except.ok v →
      (integrate P s f wE wL thrL thrR).errorOut =
        (if wE then some (integrate P s f wE wL thrL thrR).finalErr else none) ∧
      (integrate P s f wE wL thrL thrR).l1Out =
        (if wL then some (integrate P s f wE wL thrL thrR).finalL1 else none)) := by
  rw [integrate_def]
  have h := integrateLoop_error_char P f wE wL thrL thrR
    (max 4 (min s.outerSize s.maxRefinements)) (initAcc P s f thrL thrR)
    (by rw [initAcc_checks]; intro c hc; exact absurd hc (List.not_mem_nil c))
  constructor
  · intro e he
    obtain ⟨_, _, _, h4, h5⟩ := h.1 e he
    exact ⟨h4, h5⟩
  · intro v hv
    obtain ⟨_, _, h3, h4⟩ := h.2 v hv
    exact ⟨h3, h4⟩

/-- C7 — once a level is committed no operation modifies it: extension
bumps `committed` by one and appends only level `committed + 1`, whose
data is the pure function `lazyRowA` / `lazyRowW` of the level index and
the fixed constants `t_max` and `t_crossover` alone (no dependency on any
integrand or per-call data); row accessors and whole `integrate` calls
leave every committed row's abscissas, weights, and first-complement index
untouched, so repeated `integrate` calls observe identical table
contents. -/
theorem table_cache_immutable (n : ℕ) (hn : n ≤ s.committed) :
    ((extendRefinements P s).committed = s.committed + 1 ∧
     (extendRefinements P s).abscissas n = s.abscissas n ∧
     (extendRefinements P s).weights n = s.weights n ∧
     (extendRefinements P s).firstComplements n = s.firstComplements n) ∧
    ((extendRefinements P s).abscissas (s.committed + 1) =
       s.abscissas (s.committed + 1) ++
         (lazyRowA P s.tMax s.tCross (s.committed + 1)).1 ∧
     (extendRefinements P s).weights (s.committed + 1) =
       s.weights (s.committed + 1) ++ lazyRowW P s.tMax (s.committed + 1) ∧
     (extendRefinements P s).firstComplements (s.committed + 1) =
       (lazyRowA P s.tMax s.tCross (s.committed + 1)).2) ∧
    (∀ m, (getAbscissaRow P m s).2.abscissas n = s.abscissas n ∧
          (getWeightRow P m s).2.weights n = s.weights n ∧
          (getFirstComplementIndex P m s).2.firstComplements n
            = s.firstComplements n) ∧
    ((integrate P s f wE wL thrL thrR).finalState.abscissas n = s.abscissas n ∧
     (integrate P s f wE wL thrL thrR).finalState.weights n = s.weights n ∧
     (integrate P s f wE wL thrL thrR).finalState.firstComplements n
       = s.firstComplements n) := by
  obtain ⟨e1, e2, e3⟩ := extend_preserves P s hn
  refine ⟨⟨extend_committed P s, e1, e2, e3⟩,
    ⟨extend_abscissas_new P s, extend_weights_new P s,
     extend_firstComplements_new P s⟩, ?_, ?_⟩
  · intro m
    obtain ⟨c1, c2, c3, _, _, _, _, _, _, _⟩ := condExtend_preserves P s m hn
    exact ⟨c1, c2, c3⟩
  · exact (integrate_statePres P s f wE wL thrL thrR).2.2.2.2.2.2.2 n hn

/-- C3 (amended) — provided `maxRefinements` and the outer row storage both
exceed 4 and the run finishes without an evaluation-error abort: at least
4 refinement levels are performed regardless of apparent convergence; a
tolerance-based stop can only occur past level 4 and implies the
level-to-level delta is within `tol · L1`; and a stop that is not a
tolerance break happens only because the loop condition failed, i.e. `k`
reached `maxRefinements` or the row storage bound. -/
theorem integrate_min_levels_amended (hOS : 4 < s.outerSize)
    (hMR : 4 < s.maxRefinements) :
    (∀ v, (integrate P s f wE wL thrL thrR).result = Except.ok v →
      4 ≤ (integrate P s f wE wL thrL thrR).iterations) ∧
    ((integrate P s f wE wL thrL thrR).brokeTol = true →
      4 < (integrate P s f wE wL thrL thrR).finalK ∧
      (integrate P s f wE wL thrL thrR).finalErr ≤
        s.tol * (integrate P s f wE wL thrL thrR).finalL1) ∧
    ((integrate P s f wE wL thrL thrR).brokeTol = false →
      ∀ v, (integrate P s f wE wL thrL thrR).result = Except.ok v →
        s.outerSize ≤ (integrate P s f wE wL thrL thrR).finalK ∨
        s.maxRefinements ≤ (integrate P s f wE wL thrL thrR).finalK) := by
  rw [integrate_def]
  have h := integrateLoop_stop_char P f wE wL thrL thrR
    (max 4 (min s.outerSize s.maxRefinements)) (initAcc P s f thrL thrR)
    (by rw [initAcc_k, initAcc_s]; omega)
    (by rw [initAcc_k]; intro hcon; omega)
  rw [initAcc_k, initAcc_iterations, initAcc_s] at h
  obtain ⟨h1, h2, h3, h4⟩ := h
  refine ⟨?_, ?_, ?_⟩
  · intro v hv
    by_cases hb : (integrateLoop P f wE wL thrL thrR
        (max 4 (min s.outerSize s.maxRefinements))
        (initAcc P s f thrL thrR)).brokeTol = true
    · obtain ⟨hk5, _⟩ := h3 hb
      omega
    · have hb2 : (integrateLoop P f wE wL thrL thrR
          (max 4 (min s.outerSize s.maxRefinements))
          (initAcc P s f thrL thrR)).brokeTol = false := by
        cases hbb : (integrateLoop P f wE wL thrL thrR
          (max 4 (min s.outerSize s.maxRefinements))
          (initAcc P s f thrL thrR)).brokeTol
        · rfl
        · exact absurd hbb hb
      obtain ⟨hg, _⟩ := h4 hb2 v hv
      omega
  · intro hb
    exact h3 hb
  · intro hb v hv
    obtain ⟨hg, _⟩ := h4 hb v hv
    omega

end ClaimsGeneric

/-! ## Standard-strategy shape invariant and C5 -/

/-- Shape of any table state arising from the standard-initialisation
strategy: fixed constants, the special level-0 row, every committed row
equal to the canonical extension row for its level, and rows beyond
`committed` still empty. -/
def StdShape (s : TableState ℝ) : Prop :=
  s.tMax = 7 ∧ s.tCross = tCrossStd ∧ s.initialRowLength = 7 ∧
  s.abscissas 0 = stdRow0Abscissas ∧
  s.weights 0 = stdRow0Weights ∧
  s.firstComplements 0 = 0 ∧
  (∀ n, 1 ≤ n → n ≤ s.committed →
    s.abscissas n = (stdLazyRow n).1 ∧
    s.weights n = stdLazyWeights n ∧
    s.firstComplements n = (stdLazyRow n).2) ∧
  (∀ n, s.committed < n → s.abscissas n = [] ∧ s.weights n = [])

theorem stdShape_stdState (tol : ℝ) (maxRef ic : ℕ) :
    StdShape (stdState tol maxRef ic) := by
  refine ⟨rfl, rfl, rfl, ?_, ?_, ?_, ?_, ?_⟩
  · show (if 0 = 0 then stdRow0Abscissas
      else if 0 ≤ ic then (stdEagerRow 0).1 else []) = stdRow0Abscissas
    rw [if_pos rfl]
  · show (if 0 = 0 then stdRow0Weights
      else if 0 ≤ ic then stdEagerWeights 0 else []) = stdRow0Weights
    rw [if_pos rfl]
  · show (if 0 = 0 then 0 else if 0 ≤ ic then (stdEagerRow 0).2 else 0) = 0
    rw [if_pos rfl]
  · intro n h1 h2
    have hn0 : ¬(n = 0) := by omega
    have h2i : n ≤ ic := h2
    refine ⟨?_, ?_, ?_⟩
    · show (if n = 0 then stdRow0Abscissas
        else if n ≤ ic then (stdEagerRow n).1 else []) = (stdLazyRow n).1
      rw [if_neg hn0, if_pos h2i, stdEagerRow_eq_lazy]
    · show (if n = 0 then stdRow0Weights
        else if n ≤ ic then stdEagerWeights n else []) = stdLazyWeights n
      rw [if_neg hn0, if_pos h2i, stdEagerWeights_eq_lazy]
    · show (if n = 0 then 0 else if n ≤ ic then (stdEagerRow n).2 else 0)
        = (stdLazyRow n).2
      rw [if_neg hn0, if_pos h2i, stdEagerRow_eq_lazy]
  · intro n hn
    have hni : ic < n := hn
    have hn0 : ¬(n = 0) := by omega
    have hnic : ¬(n ≤ ic) := by omega
    constructor
    · show (if n = 0 then stdRow0Abscissas
        else if n ≤ ic then (stdEagerRow n).1 else []) = []
      rw [if_neg hn0, if_neg hnic]
    · show (if n = 0 then stdRow0Weights
        else if n ≤ ic then stdEagerWeights n else []) = []
      rw [if_neg hn0, if_neg hnic]

theorem stdShape_extend {s : TableState ℝ} (hs : StdShape s) :
    StdShape (extendRefinements realPrims s) := by
  obtain ⟨hMax, hCross, hLen, hA0, hW0, hF0, hRows, hEmpty⟩ := hs
  have hc1 : (0:ℕ) ≠ s.committed + 1 := by omega
  refine ⟨hMax, hCross, hLen, ?_, ?_, ?_, ?_, ?_⟩
  · rw [extend_abscissas_other realPrims s hc1]
    exact hA0
  · rw [extend_weights_other realPrims s hc1]
    exact hW0
  · rw [extend_firstComplements_other realPrims s hc1]
    exact hF0
  · intro n h1 h2
    rw [extend_committed] at h2
    by_cases hn : n ≤ s.committed
    · obtain ⟨r1, r2, r3⟩ := hRows n h1 hn
      obtain ⟨p1, p2, p3⟩ := extend_preserves realPrims s hn
      exact ⟨p1.trans r1, p2.trans r2, p3.trans r3⟩
    · have hn1 : n = s.committed + 1 := by omega
      subst hn1
      obtain ⟨hE, _⟩ := hEmpty (s.committed + 1) (by omega)
      refine ⟨?_, ?_, ?_⟩
      · rw [extend_abscissas_new, hE, List.nil_append, hMax, hCross,
          stdLazyRow_eq]
      · rw [extend_weights_new, (hEmpty (s.committed + 1) (by omega)).2,
          List.nil_append, hMax, stdLazyWeights_eq]
      · rw [extend_firstComplements_new, hMax, hCross, stdLazyRow_eq]
  · intro n hn
    rw [extend_committed] at hn
    have hne : n ≠ s.committed + 1 := by omega
    rw [extend_abscissas_other realPrims s hne,
      extend_weights_other realPrims s hne]
    exact hEmpty n (by omega)

theorem stdShape_iterate (tol : ℝ) (maxRef : ℕ) :
    ∀ m : ℕ,
      StdShape ((extendRefinements realPrims)^[m] (stdState tol maxRef 0)) ∧
      ((extendRefinements realPrims)^[m] (stdState tol maxRef 0)).committed = m := by
  intro m
  induction m with
  | zero => exact ⟨stdShape_stdState tol maxRef 0, rfl⟩
  | succ m ih =>
    rw [Function.iterate_succ_apply']
    exact ⟨stdShape_extend ih.1, by rw [extend_committed, ih.2]⟩

/-- C5 — for every level `n ≥ 1`, the abscissa row, weight row, and first
complement index produced on demand by repeated lazy extension (starting
from a standard construction that committed no refinement rows) are
identical to the level-`n` row built eagerly at construction by the
`init(0)` loop with `initial_commit = ic ≥ n`.  (In the model the two
computations perform the identical sequence of exact operations, which is
what makes the floating-point results bit-for-bit equal for one `Real`
type.) -/
theorem lazy_eq_eager (tol tol2 : ℝ) (maxRef maxRef2 ic n m : ℕ)
    (h1 : 1 ≤ n) (h2 : n ≤ ic) (hm : n ≤ m) :
    ((extendRefinements realPrims)^[m] (stdState tol2 maxRef2 0)).abscissas n =
      (stdState tol maxRef ic).abscissas n ∧
    ((extendRefinements realPrims)^[m] (stdState tol2 maxRef2 0)).weights n =
      (stdState tol maxRef ic).weights n ∧
    ((extendRefinements realPrims)^[m] (stdState tol2 maxRef2 0)).firstComplements n =
      (stdState tol maxRef ic).firstComplements n := by
  obtain ⟨hshape, hcommit⟩ := stdShape_iterate tol2 maxRef2 m
  obtain ⟨l1, l2, l3⟩ := hshape.2.2.2.2.2.2.1 n h1 (by omega)
  obtain ⟨e1, e2, e3⟩ :=
    (stdShape_stdState tol maxRef ic).2.2.2.2.2.2.1 n h1 h2
  exact ⟨l1.trans e1.symm, l2.trans e2.symm, l3.trans e3.symm⟩

/-! ## C6: characterisation of what extension appends -/

section ExtendSpec

variable [FloorRing K] (P : Prims K)

theorem two_pow_inv_pos (r : ℕ) : (0:K) < ((2:K) ^ r)⁻¹ := by
  have : (0:K) < (2:K) ^ r := by positivity
  positivity

/-- The level-`r` extension data: there is an `N` such that the appended
abscissa entries are the form-selected images of the positions
`posAt h 0, …, posAt h (N-1)` (`h = 2⁻ʳ`), the first-complement count is
the number of those positions below the crossover, the weights are the
weights at the same positions, every listed position is below `tmax`, and
the next position would reach `tmax`. -/
theorem lazyRowA_spec (tmax cross : K) (r : ℕ) :
    ∃ N : ℕ,
      (lazyRowA P tmax cross r).1 =
        (List.range N).map (fun i =>
          if posAt ((2:K) ^ r)⁻¹ i < cross then P.absc (posAt ((2:K) ^ r)⁻¹ i)
          else -(P.compl (posAt ((2:K) ^ r)⁻¹ i))) ∧
      (lazyRowA P tmax cross r).2 =
        ((List.range N).map (posAt ((2:K) ^ r)⁻¹)).countP
          (fun pos => decide (pos < cross)) ∧
      lazyRowW P tmax r =
        (List.range N).map (fun i => P.wt (posAt ((2:K) ^ r)⁻¹ i)) ∧
      (∀ i < N, posAt ((2:K) ^ r)⁻¹ i < tmax) ∧
      tmax ≤ posAt ((2:K) ^ r)⁻¹ N := by
  obtain ⟨N, heq, hlt, hcomp⟩ :=
    posLoop_spec tmax ((2:K) ^ r)⁻¹ (two_pow_inv_pos r)
  refine ⟨N, ?_, ?_, ?_, hlt, hcomp⟩
  · unfold lazyRowA
    rw [buildRow_eq, heq, List.map_map]
    rfl
  · unfold lazyRowA
    rw [buildRow_eq, heq]
  · unfold lazyRowW
    rw [heq, List.map_map]
    rfl

/-- C6 — extension of level `r = committed + 1` appends exactly the points
`pos = h, 3h, 5h, … < t_max` with `h = 2⁻ʳ`: the appended abscissa entry at
position index `i` is `abscissa(pos)` when `pos < t_crossover` and
`-complement(pos)` otherwise, the appended weight entry is `weight(pos)` in
the same order (so the appended abscissa and weight segments have equal
length), and the recorded `firstComplementIndex` is the number of appended
positions below the crossover. -/
theorem extend_appends_odd_positions (s : TableState K) :
    ∃ N : ℕ,
      (extendRefinements P s).abscissas (s.committed + 1) =
        s.abscissas (s.committed + 1) ++
          (List.range N).map (fun i =>
            if posAt ((2:K) ^ (s.committed + 1))⁻¹ i < s.tCross then
              P.absc (posAt ((2:K) ^ (s.committed + 1))⁻¹ i)
            else -(P.compl (posAt ((2:K) ^ (s.committed + 1))⁻¹ i))) ∧
      (extendRefinements P s).weights (s.committed + 1) =
        s.weights (s.committed + 1) ++
          (List.range N).map (fun i =>
            P.wt (posAt ((2:K) ^ (s.committed + 1))⁻¹ i)) ∧
      (extendRefinements P s).firstComplements (s.committed + 1) =
        ((List.range N).map (posAt ((2:K) ^ (s.committed + 1))⁻¹)).countP
          (fun pos => decide (pos < s.tCross)) ∧
      (∀ i < N, posAt ((2:K) ^ (s.committed + 1))⁻¹ i < s.tMax) ∧
      s.tMax ≤ posAt ((2:K) ^ (s.committed + 1))⁻¹ N := by
  obtain ⟨N, hA, hF, hW, hlt, hcomp⟩ :=
    lazyRowA_spec P s.tMax s.tCross (s.committed + 1)
  refine ⟨N, ?_, ?_, ?_, hlt, hcomp⟩
  · rw [extend_abscissas_new, hA]
  · rw [extend_weights_new, hW]
  · rw [extend_firstComplements_new, hF]

end ExtendSpec

/-! ## C4: row sign structure and the first-complement boundary -/

theorem getD_map_range {α : Type} {f : ℕ → α} {N i : ℕ} (hi : i < N) (d : α) :
    ((List.range N).map f).getD i d = f i := by
  rw [List.getD_eq_getElem _ _ (by simpa using hi), List.getElem_map,
    List.getElem_range]

theorem posAt_mono {h : K} (hh : 0 < h) {i j : ℕ} (hij : i ≤ j) :
    posAt h i ≤ posAt h j := by
  unfold posAt
  have hc : ((i:K)) ≤ (j:K) := by exact_mod_cast hij
  nlinarith

theorem posAt_pos {h : K} (hh : 0 < h) (i : ℕ) : 0 < posAt h i := by
  unfold posAt
  have hc : (0:K) ≤ (i:K) := by positivity
  nlinarith

/-- Within any extension-generated row, positions below the crossover come
first (stored as nonnegative direct abscissas), positions at or above it
afterwards (stored negative), and the recorded first-complement count is
exactly the boundary index. -/
theorem lazyRow_structure (tmax cross : ℝ) (r : ℕ) :
    (lazyRowA realPrims tmax cross r).2 ≤
      (lazyRowA realPrims tmax cross r).1.length ∧
    (∀ i < (lazyRowA realPrims tmax cross r).2,
      0 ≤ (lazyRowA realPrims tmax cross r).1.getD i 0) ∧
    (∀ i, (lazyRowA realPrims tmax cross r).2 ≤ i →
      i < (lazyRowA realPrims tmax cross r).1.length →
      (lazyRowA realPrims tmax cross r).1.getD i 0 < 0) := by
  obtain ⟨N, hA, hF, _, _, _⟩ := lazyRowA_spec realPrims tmax cross r
  set h : ℝ := ((2:ℝ) ^ r)⁻¹ with hh
  have hhp : (0:ℝ) < h := two_pow_inv_pos r
  have hlen : (lazyRowA realPrims tmax cross r).1.length = N := by
    rw [hA, List.length_map, List.length_range]
  have hcnt : (lazyRowA realPrims tmax cross r).2 =
      (List.range N).countP (fun i => decide (posAt h i < cross)) := by
    rw [hF, List.countP_map]
    rfl
  have hmono : ∀ i j, i ≤ j →
      (fun i => decide (posAt h i < cross)) j = true →
      (fun i => decide (posAt h i < cross)) i = true := by
    intro i j hij hj
    simp only [decide_eq_true_eq] at hj ⊢
    exact lt_of_le_of_lt (posAt_mono hhp hij) hj
  have hiff := lt_countP_range_iff (fun i => decide (posAt h i < cross)) hmono N
  have hle : (lazyRowA realPrims tmax cross r).2 ≤ N := by
    rw [hcnt]
    calc (List.range N).countP _ ≤ (List.range N).length :=
          List.countP_le_length _
      _ = N := List.length_range N
  refine ⟨by rw [hlen]; exact hle, ?_, ?_⟩
  · intro i hi
    have hiN : i < N := lt_of_lt_of_le hi hle
    have hbelow : posAt h i < cross := by
      have := (hiff i hiN).1 (by rw [hcnt] at hi; exact hi)
      simpa using this
    rw [hA, getD_map_range hiN]
    rw [if_pos hbelow]
    exact abscissa_nonneg (le_of_lt (posAt_pos hhp i))
  · intro i hfi hiN
    rw [hlen] at hiN
    have habove : ¬(posAt h i < cross) := by
      intro hcon
      have := (hiff i hiN).2 (by simpa using hcon)
      rw [hcnt] at hfi
      omega
    rw [hA, getD_map_range hiN, if_neg habove]
    have := abscissa_complement_pos (posAt h i)
    simp only [realPrims]
    linarith

/-- Boolean check of the claimed row structure for the literal
reduced-precision tables: the first `fci` entries are nonnegative, all
remaining entries are negative, and `fci` is a genuine boundary inside the
row. -/
def rowOKQ (row : List ℚ) (fci : ℕ) : Bool :=
  decide (fci < row.length) &&
  (row.take fci).all (fun v => decide (0 ≤ v)) &&
  (row.drop fci).all (fun v => decide (v < 0))

set_option maxHeartbeats 16000000 in
set_option maxRecDepth 4000 in
theorem init1_rows_ok :
    (abscissasInit1.zip firstComplementsInit1).all
      (fun p => rowOKQ p.1 p.2) = true := by
  norm_num [abscissasInit1, firstComplementsInit1, rowOKQ, List.zip,
    List.zipWith, List.all, List.take, List.drop]

theorem stdRow0_getD_lt7 (i : ℕ) (hi : i < 7) :
    stdRow0Abscissas.getD i 0 =
      if ((7:ℝ)/7) * (i:ℝ) < tCrossStd then abscissa_at_t (((7:ℝ)/7) * (i:ℝ))
      else -(abscissa_complement_at_t (((7:ℝ)/7) * (i:ℝ))) := by
  unfold stdRow0Abscissas
  have hlen : i < ((List.range 7).map (fun i : ℕ =>
      if ((7:ℝ)/7) * (i:ℝ) < tCrossStd then abscissa_at_t (((7:ℝ)/7) * (i:ℝ))
      else -(abscissa_complement_at_t (((7:ℝ)/7) * (i:ℝ))))).length := by
    simpa using hi
  rw [List.getD_append _ _ _ _ hlen, getD_map_range hi]

theorem stdRow0_getD7 :
    stdRow0Abscissas.getD 7 0 = abscissa_complement_at_t 7 := by
  unfold stdRow0Abscissas
  rw [List.getD_append_right _ _ _ _ (by simp)]
  simp

/-- C4 counterexample — in the standard strategy's level-0 row the entry at
index 7 is a positive stored complement that follows the negative entry at
index 1, so the non-negative entries do not all precede the negative ones;
and the stored `firstComplementIndex` of that row is `0` even though the
entry at index 0 is the non-negative direct-form abscissa `0` (so the first
complement-form entry sits at index 1, not 0).  This refutes the claim for
the level-0 row of the standard initialisation. -/
theorem row_structure_counterexample :
    ((stdState (1/1000000000) 10 4).abscissas 0).getD 1 0 < 0 ∧
    0 < ((stdState (1/1000000000) 10 4).abscissas 0).getD 7 0 ∧
    (stdState (1/1000000000) 10 4).firstComplements 0 = 0 ∧
    ((stdState (1/1000000000) 10 4).abscissas 0).getD 0 0 = 0 := by
  have hrow : (stdState (1/1000000000) 10 4).abscissas 0 = stdRow0Abscissas := rfl
  rw [hrow]
  refine ⟨?_, ?_, rfl, ?_⟩
  · rw [stdRow0_getD_lt7 1 (by omega)]
    have hc : ¬(((7:ℝ)/7) * ((1:ℕ):ℝ) < tCrossStd) := by
      have h1 : ((7:ℝ)/7) * ((1:ℕ):ℝ) = 1 := by norm_num
      rw [h1]
      have := tCrossStd_lt_one
      linarith
    rw [if_neg hc]
    have := abscissa_complement_pos (((7:ℝ)/7) * ((1:ℕ):ℝ))
    linarith
  · rw [stdRow0_getD7]
    exact abscissa_complement_pos 7
  · rw [stdRow0_getD_lt7 0 (by omega)]
    have h0 : ((7:ℝ)/7) * ((0:ℕ):ℝ) = 0 := by norm_num
    rw [h0]
    rw [if_pos tCrossStd_pos]
    exact abscissa_at_zero

/-- C4 (amended) — within every row generated by the extension rule (both
strategies' lazily extended rows and the standard strategy's eager rows
`r ≥ 1`, which C5 shows coincide), all nonnegative direct-form entries
precede all negative complement-form entries and the recorded
first-complement count is exactly the boundary index; the eight preseeded
rows of the reduced-precision strategy satisfy the same property; the
standard strategy's level-0 row instead has its sign switch at index 1,
carries one extra trailing positive complement entry at index 7, and its
stored `firstComplementIndex` is 0 (the unsigned first-complement scan of
row 0 is dead logic). -/
theorem row_structure_amended :
    (∀ (tmax cross : ℝ) (r : ℕ),
      (lazyRowA realPrims tmax cross r).2 ≤
        (lazyRowA realPrims tmax cross r).1.length ∧
      (∀ i < (lazyRowA realPrims tmax cross r).2,
        0 ≤ (lazyRowA realPrims tmax cross r).1.getD i 0) ∧
      (∀ i, (lazyRowA realPrims tmax cross r).2 ≤ i →
        i < (lazyRowA realPrims tmax cross r).1.length →
        (lazyRowA realPrims tmax cross r).1.getD i 0 < 0)) ∧
    ((abscissasInit1.zip firstComplementsInit1).all
      (fun p => rowOKQ p.1 p.2) = true ∧
     abscissasInit1.length = 8 ∧ firstComplementsInit1.length = 8) ∧
    (∀ (tol : ℝ) (maxRef ic n : ℕ), 1 ≤ n → n ≤ ic →
      (stdState tol maxRef ic).abscissas n =
        (lazyRowA realPrims 7 tCrossStd n).1 ∧
      (stdState tol maxRef ic).firstComplements n =
        (lazyRowA realPrims 7 tCrossStd n).2) ∧
    (stdRow0Abscissas.length = 8 ∧
     stdRow0Abscissas.getD 0 0 = 0 ∧
     (∀ i, 1 ≤ i → i ≤ 6 → stdRow0Abscissas.getD i 0 < 0) ∧
     0 < stdRow0Abscissas.getD 7 0 ∧
     (∀ (tol : ℝ) (maxRef ic : ℕ),
       (stdState tol maxRef ic).firstComplements 0 = 0)) := by
  refine ⟨fun tmax cross r => lazyRow_structure tmax cross r,
    ⟨init1_rows_ok, rfl, rfl⟩, ?_, ?_⟩
  · intro tol maxRef ic n h1 h2
    obtain ⟨e1, _, e3⟩ := (stdShape_stdState tol maxRef ic).2.2.2.2.2.2.1 n h1 h2
    rw [stdLazyRow_eq] at e1 e3
    exact ⟨e1, e3⟩
  · refine ⟨by unfold stdRow0Abscissas; simp, ?_, ?_, ?_, ?_⟩
    · rw [stdRow0_getD_lt7 0 (by omega)]
      have h0 : ((7:ℝ)/7) * ((0:ℕ):ℝ) = 0 := by norm_num
      rw [h0, if_pos tCrossStd_pos]
      exact abscissa_at_zero
    · intro i hi1 hi6
      rw [stdRow0_getD_lt7 i (by omega)]
      have harg : ((7:ℝ)/7) * (i:ℝ) = (i:ℝ) := by norm_num
      have hige : (1:ℝ) ≤ (i:ℝ) := by exact_mod_cast hi1
      have hc : ¬(((7:ℝ)/7) * (i:ℝ) < tCrossStd) := by
        rw [harg]
        have := tCrossStd_lt_one
        linarith
      rw [if_neg hc]
      have := abscissa_complement_pos (((7:ℝ)/7) * (i:ℝ))
      linarith
    · rw [stdRow0_getD7]
      exact abscissa_complement_pos 7
    · intro tol maxRef ic
      rfl

/-! ## C3 counterexample -/

/-- C3 counterexample — a legitimate standard-strategy configuration with
`maxRefinements = 3` (and `initial_commit = 3`): `integrate` performs
exactly 3 refinement levels (for instance on the integrand `f ≡ 0`), so
"at least 4 refinement levels for every integrand and configuration" is
false; the `k < 4` disjunct of the loop guard is overridden by the
`k < maxRefinements` bound. -/
theorem integrate_min_levels_counterexample :
    (integrate realPrims (stdState (1/1000000000) 3 3) (fun _ _ => (0:ℝ))
      false false (1/1000) (1/1000)).iterations = 3 := by
  rw [integrate_def]
  have hOS : (stdState (1/1000000000 : ℝ) 3 3).outerSize = 4 := rfl
  have hMR : (stdState (1/1000000000 : ℝ) 3 3).maxRefinements = 3 := rfl
  have hstop := integrateLoop_stop_char realPrims (fun _ _ => (0:ℝ)) false false
    (1/1000) (1/1000)
    (max 4 (min (stdState (1/1000000000 : ℝ) 3 3).outerSize
      (stdState (1/1000000000 : ℝ) 3 3).maxRefinements))
    (initAcc realPrims (stdState (1/1000000000) 3 3) (fun _ _ => (0:ℝ))
      (1/1000) (1/1000))
    (by rw [initAcc_k, initAcc_s]; omega)
    (by rw [initAcc_k]; intro hcon; omega)
  rw [initAcc_k, initAcc_iterations, initAcc_s] at hstop
  obtain ⟨h1, h2, h3, h4⟩ := hstop
  have hub := integrateLoop_finalK_le realPrims (fun _ _ => (0:ℝ)) false false
    (1/1000) (1/1000)
    (max 4 (min (stdState (1/1000000000 : ℝ) 3 3).outerSize
      (stdState (1/1000000000 : ℝ) 3 3).maxRefinements))
    (initAcc realPrims (stdState (1/1000000000) 3 3) (fun _ _ => (0:ℝ))
      (1/1000) (1/1000))
  rw [initAcc_k, initAcc_s] at hub
  have herr := integrateLoop_error_char realPrims (fun _ _ => (0:ℝ)) false false
    (1/1000) (1/1000)
    (max 4 (min (stdState (1/1000000000 : ℝ) 3 3).outerSize
      (stdState (1/1000000000 : ℝ) 3 3).maxRefinements))
    (initAcc realPrims (stdState (1/1000000000) 3 3) (fun _ _ => (0:ℝ))
      (1/1000) (1/1000))
    (by rw [initAcc_checks]; intro c hc; exact absurd hc (List.not_mem_nil c))
  cases hres : (integrateLoop realPrims (fun _ _ => (0:ℝ)) false false
      (1/1000) (1/1000)
      (max 4 (min (stdState (1/1000000000 : ℝ) 3 3).outerSize
        (stdState (1/1000000000 : ℝ) 3 3).maxRefinements))
      (initAcc realPrims (stdState (1/1000000000) 3 3) (fun _ _ => (0:ℝ))
        (1/1000) (1/1000))).result with
  | error e =>
    have hfin := (herr.1 e hres).1
    simp [realPrims] at hfin
  | ok v =>
    cases hbt : (integrateLoop realPrims (fun _ _ => (0:ℝ)) false false
        (1/1000) (1/1000)
        (max 4 (min (stdState (1/1000000000 : ℝ) 3 3).outerSize
          (stdState (1/1000000000 : ℝ) 3 3).maxRefinements))
        (initAcc realPrims (stdState (1/1000000000) 3 3) (fun _ _ => (0:ℝ))
          (1/1000) (1/1000))).brokeTol with
    | true =>
      obtain ⟨hk5, _⟩ := h3 hbt
      omega
    | false =>
      obtain ⟨hg, _⟩ := h4 hbt v hres
      omega

/-! ## C1: endpoint-safety of integrand evaluation

We show that on a standard-strategy state, under the code's documented
precondition (the level-0 walks end on negative complement-form entries —
the two `BOOST_ASSERT`s at source lines 163-164), every call to the
integrand has complement argument at least the corresponding threshold. -/

theorem walkBack_le (a0 : List K) (thr : K) :
    ∀ p, walkBack a0 thr p ≤ p := by
  intro p
  induction p with
  | zero => exact le_refl 0
  | succ p ih =>
    rw [walkBack]
    split
    · omega
    · omega

theorem walkBack_stop (a0 : List K) (thr : K) :
    ∀ p, walkBack a0 thr p = 0 ∨ thr ≤ |a0.getD (walkBack a0 thr p) 0| := by
  intro p
  induction p with
  | zero => exact Or.inl rfl
  | succ p ih =>
    rw [walkBack]
    split
    · exact ih
    · next hcond => exact Or.inr (le_of_not_lt hcond)

theorem bump_spec (row : List K) (thr : K) (old : ℕ) (h1 : 1 ≤ old) :
    ((bump row thr old).1 = 2 * old ∧ (bump row thr old).2 = old - 1) ∨
    ((bump row thr old).1 = 2 * old + 1 ∧ (bump row thr old).2 = old ∧
      old < row.length ∧ thr < |row.getD old 0|) := by
  have hidx : old - 1 + 1 = old := by omega
  unfold bump
  dsimp only
  by_cases hcond : old - 1 + 1 < row.length ∧ thr < |row.getD (old - 1 + 1) 0|
  · rw [if_pos hcond]
    dsimp only
    rw [hidx] at hcond ⊢
    right
    exact ⟨by omega, rfl, hcond.1, hcond.2⟩
  · rw [if_neg hcond]
    dsimp only
    left
    exact ⟨by omega, rfl⟩

/-- The threshold an integrand call must respect, by which side of the
interval the call evaluates. -/
def thrFor (thrL thrR : K) : Side → K
  | Side.left => thrL
  | Side.right => thrR
  | Side.center => max thrL thrR

/-- Every logged integrand call keeps its complement argument at or above
the corresponding threshold. -/
def CallsSafe (thrL thrR : K) (cs : List (Call K)) : Prop :=
  ∀ c ∈ cs, thrFor thrL thrR c.side ≤ |c.xc|

theorem callsSafe_append {thrL thrR : K} {cs cs' : List (Call K)}
    (h : CallsSafe thrL thrR cs) (h' : CallsSafe thrL thrR cs') :
    CallsSafe thrL thrR (cs ++ cs') := by
  intro c hc
  rcases List.mem_append.1 hc with h1 | h2
  · exact h c h1
  · exact h' c h2

/-- Fetching the three level-`k` pieces on a standard-shape state with
`k ≤ committed + 1` yields the canonical level-`k` data and a
standard-shape state with `k` committed. -/
theorem rowFetch_std {s : TableState ℝ} (hs : StdShape s) (k : ℕ)
    (hk1 : 1 ≤ k) (hk2 : k ≤ s.committed + 1) :
    (getAbscissaRow realPrims k s).1 = (stdLazyRow k).1 ∧
    (getWeightRow realPrims k (getAbscissaRow realPrims k s).2).1 =
      stdLazyWeights k ∧
    (getFirstComplementIndex realPrims k
      (getWeightRow realPrims k (getAbscissaRow realPrims k s).2).2).1 =
      (stdLazyRow k).2 ∧
    StdShape (getFirstComplementIndex realPrims k
      (getWeightRow realPrims k (getAbscissaRow realPrims k s).2).2).2 ∧
    k ≤ (getFirstComplementIndex realPrims k
      (getWeightRow realPrims k (getAbscissaRow realPrims k s).2).2).2.committed := by
  by_cases hc : s.committed < k
  · have hck : k = s.committed + 1 := by omega
    have hs' := stdShape_extend hs
    have hcom : (extendRefinements realPrims s).committed = s.committed + 1 :=
      extend_committed realPrims s
    have hnoext2 : ¬((extendRefinements realPrims s).committed < k) := by omega
    have hrow := hs'.2.2.2.2.2.2.1 k hk1 (by omega)
    unfold getAbscissaRow getWeightRow getFirstComplementIndex
    rw [if_pos hc]
    simp only [if_neg hnoext2]
    exact ⟨hrow.1, hrow.2.1, hrow.2.2, hs', by omega⟩
  · have hnoext : ¬(s.committed < k) := hc
    have hrow := hs.2.2.2.2.2.2.1 k hk1 (by omega)
    unfold getAbscissaRow getWeightRow getFirstComplementIndex
    simp only [if_neg hnoext]
    exact ⟨hrow.1, hrow.2.1, hrow.2.2, hs, by omega⟩

/-- Index-level description of a canonical level-`k` row: the abscissa and
weight rows have one common length `N`; the per-index complement argument
computed by the inner loop (`xc = stored` in the complement branch,
`xc = stored - 1` in the direct branch) always has absolute value
`complement(posAt 2⁻ᵏ j)`; and any entry at or above the crossover stores
the negated complement. -/
theorem stdLazyRow_xc (k : ℕ) :
    ∃ N : ℕ,
      (stdLazyRow k).1.length = N ∧
      (stdLazyWeights k).length = N ∧
      (∀ j < N,
        |if (stdLazyRow k).2 ≤ j then (stdLazyRow k).1.getD j 0
          else (stdLazyRow k).1.getD j 0 - 1| =
          abscissa_complement_at_t (posAt ((2:ℝ) ^ k)⁻¹ j)) ∧
      (∀ j < N, tCrossStd ≤ posAt ((2:ℝ) ^ k)⁻¹ j →
        |(stdLazyRow k).1.getD j 0| =
          abscissa_complement_at_t (posAt ((2:ℝ) ^ k)⁻¹ j)) := by
  obtain ⟨N, hA, hF, hW, _, _⟩ := lazyRowA_spec realPrims 7 tCrossStd k
  rw [← stdLazyRow_eq] at hA hF
  rw [← stdLazyWeights_eq] at hW
  set h : ℝ := ((2:ℝ) ^ k)⁻¹ with hh
  have hhp : (0:ℝ) < h := two_pow_inv_pos k
  have hmono : ∀ i j, i ≤ j →
      (fun i => decide (posAt h i < tCrossStd)) j = true →
      (fun i => decide (posAt h i < tCrossStd)) i = true := by
    intro i j hij hj
    simp only [decide_eq_true_eq] at hj ⊢
    exact lt_of_le_of_lt (posAt_mono hhp hij) hj
  have hiff := lt_countP_range_iff (fun i => decide (posAt h i < tCrossStd)) hmono N
  have hcnt : (stdLazyRow k).2 =
      (List.range N).countP (fun i => decide (posAt h i < tCrossStd)) := by
    rw [hF, List.countP_map]
    rfl
  have hentry : ∀ j < N, (stdLazyRow k).1.getD j 0 =
      (if posAt h j < tCrossStd then abscissa_at_t (posAt h j)
       else -(abscissa_complement_at_t (posAt h j))) := by
    intro j hj
    rw [hA, getD_map_range hj]
    rfl
  refine ⟨N, ?_, ?_, ?_, ?_⟩
  · rw [hA, List.length_map, List.length_range]
  · rw [hW, List.length_map, List.length_range]
  · intro j hj
    by_cases hfci : (stdLazyRow k).2 ≤ j
    · have habove : ¬(posAt h j < tCrossStd) := by
        intro hcon
        have := (hiff j hj).2 (by simpa using hcon)
        omega
      rw [if_pos hfci, hentry j hj, if_neg habove, abs_neg,
        abs_of_pos (abscissa_complement_pos _)]
    · have hbelow : posAt h j < tCrossStd := by
        have := (hiff j hj).1 (by omega)
        simpa using this
      rw [if_neg hfci, hentry j hj, if_pos hbelow]
      rw [complement_eq_one_sub_abscissa]
      rw [abs_of_nonpos (by
        have := abscissa_complement_pos (posAt h j)
        rw [complement_eq_one_sub_abscissa] at this
        linarith)]
      ring
  · intro j hj ht
    have habove : ¬(posAt h j < tCrossStd) := not_lt.2 ht
    rw [hentry j hj, if_neg habove, abs_neg,
      abs_of_pos (abscissa_complement_pos _)]

theorem innerLoop_safe (f : ℝ → ℝ → ℝ) (aRow wRow : List ℝ)
    (fci maxLidx maxRidx : ℕ) (thrL thrR : ℝ)
    (H : ∀ j, j < wRow.length →
      (j ≤ maxRidx →
        thrR ≤ |if fci ≤ j then aRow.getD j 0 else aRow.getD j 0 - 1|) ∧
      (j ≤ maxLidx →
        thrL ≤ |if fci ≤ j then aRow.getD j 0 else aRow.getD j 0 - 1|)) :
    ∀ (fuel j : ℕ) (acc : ℝ × ℝ × List (Call ℝ)),
      CallsSafe thrL thrR acc.2.2 →
      CallsSafe thrL thrR
        (innerLoop realPrims f aRow wRow fci maxLidx maxRidx fuel j acc).2.2 := by
  intro fuel
  induction fuel with
  | zero => intro j acc hacc; exact hacc
  | succ fuel ih =>
    intro j acc hacc
    obtain ⟨sum, absum, cs⟩ := acc
    rw [innerLoop]
    dsimp only
    split
    · next hlen =>
      split
      · exact hacc
      · apply ih
        dsimp only
        refine callsSafe_append (callsSafe_append hacc ?_) ?_
        · by_cases hr : maxRidx < j
          · rw [if_pos hr]
            intro c hc
            exact absurd hc (List.not_mem_nil c)
          · rw [if_neg hr]
            intro c hc
            rw [List.mem_singleton] at hc
            subst hc
            show thrR ≤ |-(if fci ≤ j then aRow.getD j 0 else aRow.getD j 0 - 1)|
            rw [abs_neg]
            exact (H j hlen).1 (by omega)
        · by_cases hl : maxLidx < j
          · rw [if_pos hl]
            intro c hc
            exact absurd hc (List.not_mem_nil c)
          · rw [if_neg hl]
            intro c hc
            rw [List.mem_singleton] at hc
            subst hc
            show thrL ≤ |if fci ≤ j then aRow.getD j 0 else aRow.getD j 0 - 1|
            exact (H j hlen).2 (by omega)
    · exact hacc

theorem level0Loop_safe (f : ℝ → ℝ → ℝ) (a0 w0 : List ℝ)
    (maxL maxR : ℕ) (thrL thrR : ℝ)
    (H : ∀ i, i < a0.length →
      (i ≤ maxR →
        thrR ≤ |if realPrims.signbit (a0.getD i 0) then a0.getD i 0
                else a0.getD i 0 - 1|) ∧
      (i ≤ maxL →
        thrL ≤ |if realPrims.signbit (a0.getD i 0) then a0.getD i 0
                else a0.getD i 0 - 1|)) :
    ∀ (fuel i : ℕ) (acc : ℝ × ℝ × List (Call ℝ)),
      CallsSafe thrL thrR acc.2.2 →
      CallsSafe thrL thrR
        (level0Loop realPrims f a0 w0 maxL maxR fuel i acc).2.2 := by
  intro fuel
  induction fuel with
  | zero => intro i acc hacc; exact hacc
  | succ fuel ih =>
    intro i acc hacc
    obtain ⟨I0, L1, cs⟩ := acc
    rw [level0Loop]
    dsimp only
    split
    · next hlen =>
      split
      · exact hacc
      · apply ih
        dsimp only
        refine callsSafe_append (callsSafe_append hacc ?_) ?_
        · by_cases hr : i ≤ maxR
          · rw [if_pos hr]
            intro c hc
            rw [List.mem_singleton] at hc
            subst hc
            show thrR ≤ |-(if realPrims.signbit (a0.getD i 0) then a0.getD i 0
              else a0.getD i 0 - 1)|
            rw [abs_neg]
            exact (H i hlen).1 hr
          · rw [if_neg hr]
            intro c hc
            exact absurd hc (List.not_mem_nil c)
        · by_cases hl : i ≤ maxL
          · rw [if_pos hl]
            intro c hc
            rw [List.mem_singleton] at hc
            subst hc
            show thrL ≤ |if realPrims.signbit (a0.getD i 0) then a0.getD i 0
              else a0.getD i 0 - 1|
            exact (H i hlen).2 hl
          · rw [if_neg hl]
            intro c hc
            exact absurd hc (List.not_mem_nil c)
    · exact hacc

/-- Per-call-side loop invariant of the refinement loop: the current
logical position on each side marks a parameter `t ≥ 1` whose complement
still dominates the side's threshold, and all logged calls are safe. -/
def AccInv (thrL thrR : ℝ) (a : LoopAcc ℝ) : Prop :=
  StdShape a.s ∧
  1 ≤ a.k ∧
  a.k ≤ a.s.committed + 1 ∧
  1 ≤ a.maxLpos ∧
  1 ≤ a.maxRpos ∧
  1 ≤ ((2:ℝ) ^ (a.k - 1))⁻¹ * a.maxLpos ∧
  1 ≤ ((2:ℝ) ^ (a.k - 1))⁻¹ * a.maxRpos ∧
  thrL ≤ abscissa_complement_at_t (((2:ℝ) ^ (a.k - 1))⁻¹ * a.maxLpos) ∧
  thrR ≤ abscissa_complement_at_t (((2:ℝ) ^ (a.k - 1))⁻¹ * a.maxRpos) ∧
  CallsSafe thrL thrR a.calls

theorem iterData_fields [FloorRing K] (P : Prims K) (f : K → K → K)
    (thrL thrR : K) (a : LoopAcc K) :
    (iterData P f thrL thrR a).maxLpos =
      (bump (getAbscissaRow P a.k a.s).1 thrL a.maxLpos).1 ∧
    (iterData P f thrL thrR a).maxRpos =
      (bump (getAbscissaRow P a.k a.s).1 thrR a.maxRpos).1 ∧
    (iterData P f thrL thrR a).calls =
      (innerLoop P f (getAbscissaRow P a.k a.s).1
        (getWeightRow P a.k (getAbscissaRow P a.k a.s).2).1
        (getFirstComplementIndex P a.k
          (getWeightRow P a.k (getAbscissaRow P a.k a.s).2).2).1
        (bump (getAbscissaRow P a.k a.s).1 thrL a.maxLpos).2
        (bump (getAbscissaRow P a.k a.s).1 thrR a.maxRpos).2
        (getWeightRow P a.k (getAbscissaRow P a.k a.s).2).1.length 0
        (0, 0, a.calls)).2.2 :=
  ⟨rfl, rfl, rfl⟩

theorem halfStep (k : ℕ) (hk : 1 ≤ k) :
    ((2:ℝ) ^ (k - 1))⁻¹ = 2 * ((2:ℝ) ^ k)⁻¹ := by
  have hpow : (2:ℝ) ^ k = (2:ℝ) ^ (k - 1) * 2 := by
    rw [← pow_succ]
    congr 1
    omega
  rw [hpow, mul_inv]
  have h2 : ((2:ℝ))⁻¹ ≠ 0 := by norm_num
  field_simp

/-- The endpoint update keeps the invariant: the new logical position (at
the halved step) still marks `t ≥ 1` with complement above the threshold,
and the new max index is consistent with the new position. -/
theorem bump_inv (k : ℕ) (hk : 1 ≤ k) (thr : ℝ) (old : ℕ) (hold : 1 ≤ old)
    (N : ℕ) (hlen : (stdLazyRow k).1.length = N)
    (habs : ∀ j < N, tCrossStd ≤ posAt ((2:ℝ) ^ k)⁻¹ j →
      |(stdLazyRow k).1.getD j 0| =
        abscissa_complement_at_t (posAt ((2:ℝ) ^ k)⁻¹ j))
    (ht1 : 1 ≤ ((2:ℝ) ^ (k - 1))⁻¹ * old)
    (hthr : thr ≤ abscissa_complement_at_t (((2:ℝ) ^ (k - 1))⁻¹ * old)) :
    1 ≤ (bump (stdLazyRow k).1 thr old).1 ∧
    1 ≤ ((2:ℝ) ^ k)⁻¹ * (bump (stdLazyRow k).1 thr old).1 ∧
    thr ≤ abscissa_complement_at_t
      (((2:ℝ) ^ k)⁻¹ * (bump (stdLazyRow k).1 thr old).1) ∧
    2 * (bump (stdLazyRow k).1 thr old).2 + 1 ≤ (bump (stdLazyRow k).1 thr old).1 := by
  have hcur : (0:ℝ) < ((2:ℝ) ^ k)⁻¹ := two_pow_inv_pos k
  have hstep := halfStep k hk
  rcases bump_spec (stdLazyRow k).1 thr old hold with ⟨hp, hi⟩ | ⟨hp, hi, hin, hgt⟩
  · rw [hp, hi]
    have heq : ((2:ℝ) ^ k)⁻¹ * ((2 * old : ℕ) : ℝ) =
        ((2:ℝ) ^ (k - 1))⁻¹ * old := by
      push_cast
      rw [hstep]
      ring
    rw [heq]
    exact ⟨by omega, ht1, hthr, by omega⟩
  · rw [hp, hi]
    have heq : ((2:ℝ) ^ k)⁻¹ * ((2 * old + 1 : ℕ) : ℝ) =
        posAt ((2:ℝ) ^ k)⁻¹ old := by
      unfold posAt
      push_cast
      ring
    have htval : ((2:ℝ) ^ (k - 1))⁻¹ * old + ((2:ℝ) ^ k)⁻¹ =
        posAt ((2:ℝ) ^ k)⁻¹ old := by
      unfold posAt
      rw [hstep]
      ring
    have ht1' : 1 ≤ posAt ((2:ℝ) ^ k)⁻¹ old := by
      rw [← htval]
      linarith
    have hcross : tCrossStd ≤ posAt ((2:ℝ) ^ k)⁻¹ old := by
      have := tCrossStd_lt_one
      linarith
    have habs' := habs old (by omega) hcross
    rw [heq]
    refine ⟨by omega, ht1', ?_, by omega⟩
    rw [← habs']
    exact le_of_lt hgt

theorem iterData_safe (f : ℝ → ℝ → ℝ) (thrL thrR : ℝ) (a : LoopAcc ℝ)
    (hinv : AccInv thrL thrR a) :
    CallsSafe thrL thrR (iterData realPrims f thrL thrR a).calls ∧
    StdShape (iterData realPrims f thrL thrR a).s3 ∧
    a.k + 1 ≤ (iterData realPrims f thrL thrR a).s3.committed + 1 ∧
    1 ≤ (iterData realPrims f thrL thrR a).maxLpos ∧
    1 ≤ (iterData realPrims f thrL thrR a).maxRpos ∧
    1 ≤ ((2:ℝ) ^ a.k)⁻¹ * (iterData realPrims f thrL thrR a).maxLpos ∧
    1 ≤ ((2:ℝ) ^ a.k)⁻¹ * (iterData realPrims f thrL thrR a).maxRpos ∧
    thrL ≤ abscissa_complement_at_t
      (((2:ℝ) ^ a.k)⁻¹ * (iterData realPrims f thrL thrR a).maxLpos) ∧
    thrR ≤ abscissa_complement_at_t
      (((2:ℝ) ^ a.k)⁻¹ * (iterData realPrims f thrL thrR a).maxRpos) := by
  obtain ⟨hshape, hk1, hkc, hL1, hR1, htL1, htR1, hthrL, hthrR, hcalls⟩ := hinv
  obtain ⟨hfA, hfW, hfF, hshape3, hcom3⟩ := rowFetch_std hshape a.k hk1 hkc
  obtain ⟨N, hlenA, hlenW, hxc, habs⟩ := stdLazyRow_xc a.k
  obtain ⟨hdL, hdR, hdcalls⟩ := iterData_fields realPrims f thrL thrR a
  rw [hfA] at hdL hdR hdcalls
  rw [hfW, hfF] at hdcalls
  have hcur : (0:ℝ) < ((2:ℝ) ^ a.k)⁻¹ := two_pow_inv_pos a.k
  obtain ⟨hbL1, hbL2, hbL3, hbL4⟩ :=
    bump_inv a.k hk1 thrL a.maxLpos hL1 N hlenA habs htL1 hthrL
  obtain ⟨hbR1, hbR2, hbR3, hbR4⟩ :=
    bump_inv a.k hk1 thrR a.maxRpos hR1 N hlenA habs htR1 hthrR
  have hs3 : (iterData realPrims f thrL thrR a).s3 =
      (getFirstComplementIndex realPrims a.k
        (getWeightRow realPrims a.k (getAbscissaRow realPrims a.k a.s).2).2).2 :=
    iterData_s3 realPrims f thrL thrR a
  have hH : ∀ j, j < (stdLazyWeights a.k).length →
      (j ≤ (bump (stdLazyRow a.k).1 thrR a.maxRpos).2 →
        thrR ≤ |if (stdLazyRow a.k).2 ≤ j then (stdLazyRow a.k).1.getD j 0
          else (stdLazyRow a.k).1.getD j 0 - 1|) ∧
      (j ≤ (bump (stdLazyRow a.k).1 thrL a.maxLpos).2 →
        thrL ≤ |if (stdLazyRow a.k).2 ≤ j then (stdLazyRow a.k).1.getD j 0
          else (stdLazyRow a.k).1.getD j 0 - 1|) := by
    intro j hj
    rw [hlenW] at hj
    rw [hxc j hj]
    constructor
    · intro hjR
      have hle : posAt ((2:ℝ) ^ a.k)⁻¹ j ≤
          ((2:ℝ) ^ a.k)⁻¹ * (bump (stdLazyRow a.k).1 thrR a.maxRpos).1 := by
        unfold posAt
        have hcast : (2 * (j:ℝ) + 1) ≤
            ((bump (stdLazyRow a.k).1 thrR a.maxRpos).1 : ℝ) := by
          have : (2 * j + 1 : ℕ) ≤ (bump (stdLazyRow a.k).1 thrR a.maxRpos).1 := by
            omega
          exact_mod_cast this
        exact mul_le_mul_of_nonneg_left hcast (le_of_lt hcur)
      exact le_trans hbR3 (abscissa_complement_antitone hle)
    · intro hjL
      have hle : posAt ((2:ℝ) ^ a.k)⁻¹ j ≤
          ((2:ℝ) ^ a.k)⁻¹ * (bump (stdLazyRow a.k).1 thrL a.maxLpos).1 := by
        unfold posAt
        have hcast : (2 * (j:ℝ) + 1) ≤
            ((bump (stdLazyRow a.k).1 thrL a.maxLpos).1 : ℝ) := by
          have : (2 * j + 1 : ℕ) ≤ (bump (stdLazyRow a.k).1 thrL a.maxLpos).1 := by
            omega
          exact_mod_cast this
        exact mul_le_mul_of_nonneg_left hcast (le_of_lt hcur)
      exact le_trans hbL3 (abscissa_complement_antitone hle)
  refine ⟨?_, ?_, ?_, ?_, ?_, ?_, ?_, ?_, ?_⟩
  · rw [hdcalls]
    exact innerLoop_safe f (stdLazyRow a.k).1 (stdLazyWeights a.k)
      (stdLazyRow a.k).2 (bump (stdLazyRow a.k).1 thrL a.maxLpos).2
      (bump (stdLazyRow a.k).1 thrR a.maxRpos).2 thrL thrR hH
      (stdLazyWeights a.k).length 0 (0, 0, a.calls) hcalls
  · rw [hs3]
    exact hshape3
  · rw [hs3]
    omega
  · rw [hdL]
    exact hbL1
  · rw [hdR]
    exact hbR1
  · rw [hdL]
    exact hbL2
  · rw [hdR]
    exact hbR2
  · rw [hdL]
    exact hbL3
  · rw [hdR]
    exact hbR3

theorem integrateLoop_calls_safe (f : ℝ → ℝ → ℝ) (wE wL : Bool) (thrL thrR : ℝ) :
    ∀ (fuel : ℕ) (a : LoopAcc ℝ), AccInv thrL thrR a →
      CallsSafe thrL thrR
        (integrateLoop realPrims f wE wL thrL thrR fuel a).calls := by
  intro fuel
  induction fuel with
  | zero =>
    intro a hinv
    exact hinv.2.2.2.2.2.2.2.2.2
  | succ fuel ih =>
    intro a hinv
    rw [integrateLoop]
    split
    · cases hb : loopBody realPrims f thrL thrR a with
      | errorRet out =>
        obtain ⟨_, _, _, _, _, _, hcallsEq, _⟩ :=
          loopBody_error_spec realPrims f thrL thrR a out hb
        rw [hcallsEq]
        exact (iterData_safe f thrL thrR a hinv).1
      | breakTol a' =>
        obtain ⟨_, _, _, _, _, hcallsEq, _⟩ :=
          loopBody_break_spec realPrims f thrL thrR a a' hb
        show CallsSafe thrL thrR a'.calls
        rw [hcallsEq]
        exact (iterData_safe f thrL thrR a hinv).1
      | next a' =>
        obtain ⟨hfin, hchk, hk, hit, hI1, hL1e, herr2, hs, hcallsEq, hmL, hmR,
          hcond, hpres⟩ := loopBody_next_spec realPrims f thrL thrR a a' hb
        obtain ⟨hc1, hc2, hc3, hc4, hc5, hc6, hc7, hc8, hc9⟩ :=
          iterData_safe f thrL thrR a hinv
        have hk1 : 1 ≤ a.k := hinv.2.1
        have hksub : a'.k - 1 = a.k := by omega
        apply ih
        refine ⟨?_, by omega, ?_, ?_, ?_, ?_, ?_, ?_, ?_, ?_⟩
        · rw [hs]
          exact hc2
        · rw [hs, hk]
          exact hc3
        · rw [hmL]
          exact hc4
        · rw [hmR]
          exact hc5
        · rw [hksub, hmL]
          exact hc6
        · rw [hksub, hmR]
          exact hc7
        · rw [hksub, hmL]
          exact hc8
        · rw [hksub, hmR]
          exact hc9
        · rw [hcallsEq]
          exact hc1
    · exact hinv.2.2.2.2.2.2.2.2.2

theorem stdRow0_length : stdRow0Abscissas.length = 8 := by
  unfold stdRow0Abscissas
  simp

theorem stdRow0_getD0 : stdRow0Abscissas.getD 0 0 = 0 := by
  rw [stdRow0_getD_lt7 0 (by omega)]
  have h0 : ((7:ℝ)/7) * ((0:ℕ):ℝ) = 0 := by norm_num
  rw [h0, if_pos tCrossStd_pos]
  exact abscissa_at_zero

/-- Entries 1 through 6 of the standard level-0 row store negated
complements of the integer node parameters. -/
theorem stdRow0_entry_mid (i : ℕ) (h1 : 1 ≤ i) (h6 : i ≤ 6) :
    stdRow0Abscissas.getD i 0 = -(abscissa_complement_at_t (i:ℝ)) := by
  have harg : ((7:ℝ)/7) * (i:ℝ) = (i:ℝ) := by norm_num
  have hnc : ¬((i:ℝ) < tCrossStd) := by
    have hge : (1:ℝ) ≤ (i:ℝ) := by exact_mod_cast h1
    have := tCrossStd_lt_one
    linarith
  rw [stdRow0_getD_lt7 i (by omega), harg, if_neg hnc]

/-- The source's `BOOST_ASSERT` precondition — the level-0 endpoint walk
stops on a negative stored entry — pins the walk result to an interior
index 1..6 whose complement still dominates the threshold; in particular
the threshold is at most 1. -/
theorem walk_precondition (thr : ℝ)
    (hneg : stdRow0Abscissas.getD (walkBack stdRow0Abscissas thr 7) 0 < 0) :
    1 ≤ walkBack stdRow0Abscissas thr 7 ∧
    walkBack stdRow0Abscissas thr 7 ≤ 6 ∧
    thr ≤ abscissa_complement_at_t ((walkBack stdRow0Abscissas thr 7 : ℕ) : ℝ) ∧
    thr ≤ 1 := by
  have hle : walkBack stdRow0Abscissas thr 7 ≤ 7 := walkBack_le _ _ 7
  have hne0 : walkBack stdRow0Abscissas thr 7 ≠ 0 := by
    intro h0
    rw [h0, stdRow0_getD0] at hneg
    exact lt_irrefl 0 hneg
  have hne7 : walkBack stdRow0Abscissas thr 7 ≠ 7 := by
    intro h7
    rw [h7, stdRow0_getD7] at hneg
    exact absurd hneg (not_lt.2 (le_of_lt (abscissa_complement_pos 7)))
  have h1 : 1 ≤ walkBack stdRow0Abscissas thr 7 := by omega
  have h6 : walkBack stdRow0Abscissas thr 7 ≤ 6 := by omega
  have habs : thr ≤ |stdRow0Abscissas.getD (walkBack stdRow0Abscissas thr 7) 0| := by
    rcases walkBack_stop stdRow0Abscissas thr 7 with h0 | h
    · exact absurd h0 hne0
    · exact h
  rw [stdRow0_entry_mid _ h1 h6, abs_neg,
    abs_of_pos (abscissa_complement_pos _)] at habs
  have hcle : abscissa_complement_at_t
      ((walkBack stdRow0Abscissas thr 7 : ℕ) : ℝ) ≤ 1 :=
    abscissa_complement_le_one (Nat.cast_nonneg _)
  exact ⟨h1, h6, habs, le_trans habs hcle⟩

/-- A level-0 inner-loop complement argument at index `i ≤ m` dominates any
threshold that is dominated by `complement(m)` (for interior `m`) and by 1
(for the center index 0, whose complement argument is `0 - 1 = -1`). -/
theorem stdRow0_entry_safe (thr : ℝ) (m : ℕ) (h1 : 1 ≤ m) (h6 : m ≤ 6)
    (hthr : thr ≤ abscissa_complement_at_t (m:ℝ)) (hthr1 : thr ≤ 1)
    (i : ℕ) (hi : i < 8) (him : i ≤ m) :
    thr ≤ |if realPrims.signbit (stdRow0Abscissas.getD i 0)
            then stdRow0Abscissas.getD i 0
            else stdRow0Abscissas.getD i 0 - 1| := by
  by_cases hi0 : i = 0
  · subst hi0
    have hsb : realPrims.signbit (stdRow0Abscissas.getD 0 0) = false := by
      rw [stdRow0_getD0]
      exact decide_eq_false (lt_irrefl 0)
    rw [hsb, if_neg Bool.false_ne_true, stdRow0_getD0]
    have habs : |(0:ℝ) - 1| = 1 := by norm_num
    rw [habs]
    exact hthr1
  · have hi1 : 1 ≤ i := by omega
    have hi6 : i ≤ 6 := by omega
    have hneg : stdRow0Abscissas.getD i 0 < 0 := by
      rw [stdRow0_entry_mid i hi1 hi6]
      exact neg_lt_zero.2 (abscissa_complement_pos _)
    have hsb : realPrims.signbit (stdRow0Abscissas.getD i 0) = true :=
      decide_eq_true hneg
    rw [hsb, if_pos rfl, stdRow0_entry_mid i hi1 hi6, abs_neg,
      abs_of_pos (abscissa_complement_pos _)]
    have hcast : (i:ℝ) ≤ (m:ℝ) := by exact_mod_cast him
    exact le_trans hthr (abscissa_complement_antitone hcast)

/-- C1 — endpoint safety of integrand evaluation on a standard-strategy
state: whenever the level-0 endpoint walks land on negative
(complement-form) stored entries — the precondition the source asserts
with its two `BOOST_ASSERT`s at lines 163-164 — every invocation
`f x xc` the driver makes, at level 0 and at every refinement level,
satisfies `|xc| ≥` the corresponding per-side minimum complement
threshold (the single center call obeys both thresholds), so `f` is
never evaluated closer to an endpoint than the caller permitted. -/
theorem integrate_respects_min_complement (tol : ℝ) (maxRef ic : ℕ)
    (f : ℝ → ℝ → ℝ) (wE wL : Bool) (thrL thrR : ℝ)
    (hL : ((stdState tol maxRef ic).abscissas 0).getD
        (walkBack ((stdState tol maxRef ic).abscissas 0) thrL
          (((stdState tol maxRef ic).abscissas 0).length - 1)) 0 < 0)
    (hR : ((stdState tol maxRef ic).abscissas 0).getD
        (walkBack ((stdState tol maxRef ic).abscissas 0) thrR
          (((stdState tol maxRef ic).abscissas 0).length - 1)) 0 < 0) :
    ∀ c ∈ (integrate realPrims (stdState tol maxRef ic) f wE wL thrL thrR).calls,
      thrFor thrL thrR c.side ≤ |c.xc| := by
  have hrow : (stdState tol maxRef ic).abscissas 0 = stdRow0Abscissas := rfl
  have hwrow : (stdState tol maxRef ic).weights 0 = stdRow0Weights := rfl
  have hlen : ((stdState tol maxRef ic).abscissas 0).length - 1 = 7 := by
    rw [hrow, stdRow0_length]
  have hlen8 : ((stdState tol maxRef ic).abscissas 0).length = 8 := by
    rw [hrow, stdRow0_length]
  rw [hlen, hrow] at hL hR
  have hpL := walk_precondition thrL hL
  have hpR := walk_precondition thrR hR
  have hmLeq : (initAcc realPrims (stdState tol maxRef ic) f thrL thrR).maxLpos =
      walkBack stdRow0Abscissas thrL 7 := by
    show walkBack ((stdState tol maxRef ic).abscissas 0) thrL
        (((stdState tol maxRef ic).abscissas 0).length - 1) = _
    rw [hlen, hrow]
  have hmReq : (initAcc realPrims (stdState tol maxRef ic) f thrL thrR).maxRpos =
      walkBack stdRow0Abscissas thrR 7 := by
    show walkBack ((stdState tol maxRef ic).abscissas 0) thrR
        (((stdState tol maxRef ic).abscissas 0).length - 1) = _
    rw [hlen, hrow]
  have h20 : ((2:ℝ) ^ ((1:ℕ) - 1))⁻¹ = 1 := by norm_num
  have hinv : AccInv thrL thrR
      (initAcc realPrims (stdState tol maxRef ic) f thrL thrR) := by
    refine ⟨stdShape_stdState tol maxRef ic, le_refl 1, ?_, ?_, ?_, ?_, ?_,
      ?_, ?_, ?_⟩
    · show 1 ≤ ic + 1
      omega
    · rw [hmLeq]
      exact hpL.1
    · rw [hmReq]
      exact hpR.1
    · rw [initAcc_k, hmLeq, h20, one_mul]
      exact_mod_cast hpL.1
    · rw [initAcc_k, hmReq, h20, one_mul]
      exact_mod_cast hpR.1
    · rw [initAcc_k, hmLeq, h20, one_mul]
      exact hpL.2.2.1
    · rw [initAcc_k, hmReq, h20, one_mul]
      exact hpR.2.2.1
    · have hcalls : (initAcc realPrims (stdState tol maxRef ic) f thrL thrR).calls =
          (level0Loop realPrims f stdRow0Abscissas stdRow0Weights
            (walkBack stdRow0Abscissas thrL 7) (walkBack stdRow0Abscissas thrR 7)
            8 1 (realPrims.halfPi * f 0 1, |realPrims.halfPi * f 0 1|,
              [⟨Side.center, 0, 1⟩])).2.2 := by
        show (level0Loop realPrims f ((stdState tol maxRef ic).abscissas 0)
            ((stdState tol maxRef ic).weights 0)
            (walkBack ((stdState tol maxRef ic).abscissas 0) thrL
              (((stdState tol maxRef ic).abscissas 0).length - 1))
            (walkBack ((stdState tol maxRef ic).abscissas 0) thrR
              (((stdState tol maxRef ic).abscissas 0).length - 1))
            ((stdState tol maxRef ic).abscissas 0).length 1
            (realPrims.halfPi * f 0 1, |realPrims.halfPi * f 0 1|,
              [⟨Side.center, 0, 1⟩])).2.2 = _
        rw [hlen, hlen8, hrow, hwrow]
      rw [hcalls]
      refine level0Loop_safe f stdRow0Abscissas stdRow0Weights
        (walkBack stdRow0Abscissas thrL 7) (walkBack stdRow0Abscissas thrR 7)
        thrL thrR ?_ 8 1 _ ?_
      · intro i hi
        rw [stdRow0_length] at hi
        constructor
        · intro hiR
          exact stdRow0_entry_safe thrR _ hpR.1 hpR.2.1 hpR.2.2.1 hpR.2.2.2
            i hi hiR
        · intro hiL
          exact stdRow0_entry_safe thrL _ hpL.1 hpL.2.1 hpL.2.2.1 hpL.2.2.2
            i hi hiL
      · show CallsSafe thrL thrR [⟨Side.center, 0, 1⟩]
        intro c hc
        rw [List.mem_singleton] at hc
        subst hc
        show max thrL thrR ≤ |(1:ℝ)|
        rw [abs_one]
        exact max_le hpL.2.2.2 hpR.2.2.2
  show CallsSafe thrL thrR
    (integrate realPrims (stdState tol maxRef ic) f wE wL thrL thrR).calls
  rw [integrate_def]
  exact integrateLoop_calls_safe f wE wL thrL thrR _ _ hinv

/-- At threshold `1/1000` the standard level-0 endpoint walk stops at
index 1: entries 2..7 have complement magnitude below the threshold while
entry 1 stores `-complement(1)` with `complement(1) ≥ 1/1000`. -/
theorem walkStd_milli : walkBack stdRow0Abscissas (1/1000) 7 = 1 := by
  have hsmall : ∀ i, 2 ≤ i → i ≤ 7 → |stdRow0Abscissas.getD i 0| < 1/1000 := by
    intro i h2 h7
    have h2le : (2:ℝ) ≤ (i:ℝ) := by exact_mod_cast h2
    have hcomp : abscissa_complement_at_t (i:ℝ) < 1/1000 :=
      lt_of_le_of_lt (abscissa_complement_antitone h2le) compl_two_lt
    by_cases h6 : i ≤ 6
    · rw [stdRow0_entry_mid i (by omega) h6, abs_neg,
        abs_of_pos (abscissa_complement_pos _)]
      exact hcomp
    · have h7e : i = 7 := by omega
      subst h7e
      rw [stdRow0_getD7, abs_of_pos (abscissa_complement_pos _)]
      exact_mod_cast hcomp
  have hbig : ¬(|stdRow0Abscissas.getD 1 0| < 1/1000) := by
    rw [stdRow0_entry_mid 1 (by omega) (by omega), abs_neg,
      abs_of_pos (abscissa_complement_pos _)]
    push_neg
    exact_mod_cast compl_one_ge
  have step : ∀ p, |stdRow0Abscissas.getD (p+1) 0| < 1/1000 →
      walkBack stdRow0Abscissas (1/1000) (p+1) =
        walkBack stdRow0Abscissas (1/1000) p := by
    intro p h
    rw [walkBack, if_pos h]
  have stop : walkBack stdRow0Abscissas (1/1000) (0+1) = 0+1 := by
    rw [walkBack, if_neg hbig]
  have e7 : walkBack stdRow0Abscissas (1/1000) 7 =
      walkBack stdRow0Abscissas (1/1000) 6 := step 6 (hsmall 7 (by omega) (by omega))
  have e6 : walkBack stdRow0Abscissas (1/1000) 6 =
      walkBack stdRow0Abscissas (1/1000) 5 := step 5 (hsmall 6 (by omega) (by omega))
  have e5 : walkBack stdRow0Abscissas (1/1000) 5 =
      walkBack stdRow0Abscissas (1/1000) 4 := step 4 (hsmall 5 (by omega) (by omega))
  have e4 : walkBack stdRow0Abscissas (1/1000) 4 =
      walkBack stdRow0Abscissas (1/1000) 3 := step 3 (hsmall 4 (by omega) (by omega))
  have e3 : walkBack stdRow0Abscissas (1/1000) 3 =
      walkBack stdRow0Abscissas (1/1000) 2 := step 2 (hsmall 3 (by omega) (by omega))
  have e2 : walkBack stdRow0Abscissas (1/1000) 2 =
      walkBack stdRow0Abscissas (1/1000) 1 := step 1 (hsmall 2 (by omega) (by omega))
  have e1 : walkBack stdRow0Abscissas (1/1000) 1 = 1 := stop
  rw [e7, e6, e5, e4, e3, e2, e1]

theorem integrate_respects_min_complement_witness :
    (((stdState (1/1000000000 : ℝ) 5 5).abscissas 0).getD
        (walkBack ((stdState (1/1000000000 : ℝ) 5 5).abscissas 0) (1/1000)
          (((stdState (1/1000000000 : ℝ) 5 5).abscissas 0).length - 1)) 0 < 0) ∧
    ∀ c ∈ (integrate realPrims (stdState (1/1000000000) 5 5) (fun _ _ => (0:ℝ))
        false false (1/1000) (1/1000)).calls,
      thrFor (1/1000 : ℝ) (1/1000) c.side ≤ |c.xc| := by
  have hrow : (stdState (1/1000000000 : ℝ) 5 5).abscissas 0 = stdRow0Abscissas :=
    rfl
  have hlen : ((stdState (1/1000000000 : ℝ) 5 5).abscissas 0).length - 1 = 7 := by
    rw [hrow, stdRow0_length]
  have hneg : ((stdState (1/1000000000 : ℝ) 5 5).abscissas 0).getD
      (walkBack ((stdState (1/1000000000 : ℝ) 5 5).abscissas 0) (1/1000)
        (((stdState (1/1000000000 : ℝ) 5 5).abscissas 0).length - 1)) 0 < 0 := by
    rw [hlen, hrow, walkStd_milli, stdRow0_entry_mid 1 (by omega) (by omega)]
    exact neg_lt_zero.2 (abscissa_complement_pos _)
  exact ⟨hneg, integrate_respects_min_complement (1/1000000000) 5 5
    (fun _ _ => (0:ℝ)) false false (1/1000) (1/1000) hneg hneg⟩

theorem integrate_min_levels_amended_witness :
    (∀ v, (integrate realPrims (stdState (1/1000000000 : ℝ) 6 0)
        (fun _ _ => (0:ℝ)) false false (1/1000) (1/1000)).result = Except.ok v →
      4 ≤ (integrate realPrims (stdState (1/1000000000 : ℝ) 6 0)
        (fun _ _ => (0:ℝ)) false false (1/1000) (1/1000)).iterations) ∧
    ((integrate realPrims (stdState (1/1000000000 : ℝ) 6 0)
        (fun _ _ => (0:ℝ)) false false (1/1000) (1/1000)).brokeTol = true →
      4 < (integrate realPrims (stdState (1/1000000000 : ℝ) 6 0)
        (fun _ _ => (0:ℝ)) false false (1/1000) (1/1000)).finalK ∧
      (integrate realPrims (stdState (1/1000000000 : ℝ) 6 0)
        (fun _ _ => (0:ℝ)) false false (1/1000) (1/1000)).finalErr ≤
        (stdState (1/1000000000 : ℝ) 6 0).tol *
          (integrate realPrims (stdState (1/1000000000 : ℝ) 6 0)
            (fun _ _ => (0:ℝ)) false false (1/1000) (1/1000)).finalL1) ∧
    ((integrate realPrims (stdState (1/1000000000 : ℝ) 6 0)
        (fun _ _ => (0:ℝ)) false false (1/1000) (1/1000)).brokeTol = false →
      ∀ v, (integrate realPrims (stdState (1/1000000000 : ℝ) 6 0)
          (fun _ _ => (0:ℝ)) false false (1/1000) (1/1000)).result = Except.ok v →
        (stdState (1/1000000000 : ℝ) 6 0).outerSize ≤
          (integrate realPrims (stdState (1/1000000000 : ℝ) 6 0)
            (fun _ _ => (0:ℝ)) false false (1/1000) (1/1000)).finalK ∨
        (stdState (1/1000000000 : ℝ) 6 0).maxRefinements ≤
          (integrate realPrims (stdState (1/1000000000 : ℝ) 6 0)
            (fun _ _ => (0:ℝ)) false false (1/1000) (1/1000)).finalK) :=
  integrate_min_levels_amended realPrims (stdState (1/1000000000) 6 0)
    (fun _ _ => (0:ℝ)) false false (1/1000) (1/1000)
    (by show (4:ℕ) < 7; omega) (by show (4:ℕ) < 6; omega)

theorem lazy_eq_eager_witness :
    ((extendRefinements realPrims)^[1] (stdState (1/10 : ℝ) 5 0)).abscissas 1 =
      (stdState (1/10 : ℝ) 5 1).abscissas 1 ∧
    ((extendRefinements realPrims)^[1] (stdState (1/10 : ℝ) 5 0)).weights 1 =
      (stdState (1/10 : ℝ) 5 1).weights 1 ∧
    ((extendRefinements realPrims)^[1] (stdState (1/10 : ℝ) 5 0)).firstComplements 1 =
      (stdState (1/10 : ℝ) 5 1).firstComplements 1 :=
  lazy_eq_eager (1/10) (1/10) 5 5 1 1 1 (by omega) (by omega) (by omega)

theorem table_cache_immutable_witness :
    ((extendRefinements realPrims (stdState (1/10 : ℝ) 5 2)).committed =
        (stdState (1/10 : ℝ) 5 2).committed + 1 ∧
     (extendRefinements realPrims (stdState (1/10 : ℝ) 5 2)).abscissas 1 =
        (stdState (1/10 : ℝ) 5 2).abscissas 1 ∧
     (extendRefinements realPrims (stdState (1/10 : ℝ) 5 2)).weights 1 =
        (stdState (1/10 : ℝ) 5 2).weights 1 ∧
     (extendRefinements realPrims (stdState (1/10 : ℝ) 5 2)).firstComplements 1 =
        (stdState (1/10 : ℝ) 5 2).firstComplements 1) ∧
    ((extendRefinements realPrims (stdState (1/10 : ℝ) 5 2)).abscissas
        ((stdState (1/10 : ℝ) 5 2).committed + 1) =
       (stdState (1/10 : ℝ) 5 2).abscissas
          ((stdState (1/10 : ℝ) 5 2).committed + 1) ++
         (lazyRowA realPrims (stdState (1/10 : ℝ) 5 2).tMax
           (stdState (1/10 : ℝ) 5 2).tCross
           ((stdState (1/10 : ℝ) 5 2).committed + 1)).1 ∧
     (extendRefinements realPrims (stdState (1/10 : ℝ) 5 2)).weights
        ((stdState (1/10 : ℝ) 5 2).committed + 1) =
       (stdState (1/10 : ℝ) 5 2).weights
          ((stdState (1/10 : ℝ) 5 2).committed + 1) ++
         lazyRowW realPrims (stdState (1/10 : ℝ) 5 2).tMax
           ((stdState (1/10 : ℝ) 5 2).committed + 1) ∧
     (extendRefinements realPrims (stdState (1/10 : ℝ) 5 2)).firstComplements
        ((stdState (1/10 : ℝ) 5 2).committed + 1) =
       (lazyRowA realPrims (stdState (1/10 : ℝ) 5 2).tMax
         (stdState (1/10 : ℝ) 5 2).tCross
         ((stdState (1/10 : ℝ) 5 2).committed + 1)).2) ∧
    (∀ m, (getAbscissaRow realPrims m (stdState (1/10 : ℝ) 5 2)).2.abscissas 1 =
            (stdState (1/10 : ℝ) 5 2).abscissas 1 ∧
          (getWeightRow realPrims m (stdState (1/10 : ℝ) 5 2)).2.weights 1 =
            (stdState (1/10 : ℝ) 5 2).weights 1 ∧
          (getFirstComplementIndex realPrims m
              (stdState (1/10 : ℝ) 5 2)).2.firstComplements 1
            = (stdState (1/10 : ℝ) 5 2).firstComplements 1) ∧
    ((integrate realPrims (stdState (1/10 : ℝ) 5 2) (fun _ _ => (0:ℝ))
        false false (1/1000) (1/1000)).finalState.abscissas 1 =
        (stdState (1/10 : ℝ) 5 2).abscissas 1 ∧
     (integrate realPrims (stdState (1/10 : ℝ) 5 2) (fun _ _ => (0:ℝ))
        false false (1/1000) (1/1000)).finalState.weights 1 =
        (stdState (1/10 : ℝ) 5 2).weights 1 ∧
     (integrate realPrims (stdState (1/10 : ℝ) 5 2) (fun _ _ => (0:ℝ))
        false false (1/1000) (1/1000)).finalState.firstComplements 1
       = (stdState (1/10 : ℝ) 5 2).firstComplements 1) :=
  table_cache_immutable realPrims (stdState (1/10) 5 2) (fun _ _ => (0:ℝ))
    false false (1/1000) (1/1000) 1 (by show (1:ℕ) ≤ 2; omega)

end TanhSinh
